import Mathlib

/-!
Verification of the AceJump match-scanning and label-assignment engine
(`ace_jump.py`, `libs/char_width_converter.py`, `libs/xpinyin/__init__.py`).

Text offsets, buffer ids and characters (Unicode codepoints) are modelled as
`Nat`; Python strings are `List Nat` of codepooints.  The host editor's search
primitive `sublime.View.find` is modelled abstractly as a `Searcher`; the
plugin's own loops are embedded as executable Lean functions.
-/

namespace AceJump

/-- Model of the host search primitive `view.find(regex, start, flags)`:
given a start offset it yields the next match `(begin, end)` at or after that
offset, or `none` when there is no further match or the match region is falsy
(empty): the Python scan loop in `AddAceJumpLabelsCommand.find` breaks on
`not word`, which covers both the no-match sentinel `Region(-1, -1)` and a
zero-length match. -/
structure Searcher where
  next : Nat → Option (Nat × Nat)

/-- The host contract for `view.find`: a reported match begins at or after the
requested start offset and is nonempty. -/
def Searcher.Wf (S : Searcher) : Prop :=
  ∀ s b e, S.next s = some (b, e) → s ≤ b ∧ b < e

/-- The scanning `while` loop of `AddAceJumpLabelsCommand.find`:

    while next_search < last_search and last_index < max_labels:
        word = self.view.find(regex, next_search, ...)
        if not word or word.end() > last_search:
            break
        last_index += 1
        next_search = word.end()
        found_regions.append(sublime.Region(word.begin(), word.begin() + 1))

The accumulated raw matches `(begin, end)` are returned in order together with
the final `next_search` and `last_index`.  The loop is driven by explicit fuel;
for a well-formed searcher the cursor strictly increases and stays below
`lastSearch`, so fuel `lastSearch + 1` is always sufficient. -/
def findLoop (S : Searcher) (lastSearch maxLabels : Nat) :
    Nat → Nat → Nat → List (Nat × Nat) × Nat × Nat
  | 0, nextSearch, lastIndex => ([], nextSearch, lastIndex)
  | fuel + 1, nextSearch, lastIndex =>
    if nextSearch < lastSearch ∧ lastIndex < maxLabels then
      match S.next nextSearch with
      | none => ([], nextSearch, lastIndex)
      | some (b, e) =>
        if lastSearch < e then ([], nextSearch, lastIndex)
        else
          match findLoop S lastSearch maxLabels fuel e (lastIndex + 1) with
          | (ms, ns1, li1) => ((b, e) :: ms, ns1, li1)
    else ([], nextSearch, lastIndex)

/-- Result of one `AddAceJumpLabelsCommand.find` pass: the normalized
single-character regions, the module-global `next_search` cursor afterwards
(`none` models the Python value `False`, the exhausted sentinel) and the
module-global `last_index` afterwards. -/
structure FindResult where
  regions : List (Nat × Nat)
  nextSearch : Option Nat
  lastIndex : Nat
deriving Repr, DecidableEq

/-- The raw-match part of one `find` pass over the region
`[regionBegin, regionEnd)`: `next_search = next_search or region.begin()`
resumes from the saved cursor when one exists. -/
def findRaw (S : Searcher) (regionBegin regionEnd : Nat) (savedCursor : Option Nat)
    (maxLabels lastIndex : Nat) : List (Nat × Nat) × Nat × Nat :=
  findLoop S regionEnd maxLabels (regionEnd + 1) (savedCursor.getD regionBegin) lastIndex

/-- One full `AddAceJumpLabelsCommand.find` pass.  Each accepted raw match
`(b, e)` is recorded as the single-character region `(b, b + 1)` exactly as the
source appends `sublime.Region(word.begin(), word.begin() + 1)`, and after the
loop `next_search` is reset to the exhausted sentinel when the label budget was
not reached (`if last_index < max_labels: next_search = False`). -/
def find (S : Searcher) (regionBegin regionEnd : Nat) (savedCursor : Option Nat)
    (maxLabels lastIndex : Nat) : FindResult :=
  match findRaw S regionBegin regionEnd savedCursor maxLabels lastIndex with
  | (ms, ns1, li1) =>
    { regions := ms.map (fun m => (m.1, m.1 + 1))
      nextSearch := if li1 < maxLabels then none else some ns1
      lastIndex := li1 }

/-- Helper: least `i` with `s ≤ i < s + k` and `p i`, by bounded recursion. -/
def firstIdxFromFuel (p : Nat → Bool) : Nat → Nat → Option Nat
  | 0, _ => none
  | k + 1, s => if p s then some s else firstIdxFromFuel p k (s + 1)

/-- Least index `i` with `s ≤ i < bound` satisfying `p`, or `none`. -/
def firstIdxFrom (p : Nat → Bool) (s bound : Nat) : Option Nat :=
  firstIdxFromFuel p (bound - s) s

/-- Concrete instance of the host search primitive for the character patterns
this plugin builds in char mode: the pattern matches a single character that
is either the literal seed character or belongs to the appended alternation
class `[c1c2...]` of phonetically matched characters.  `view.find` then
returns the first such position at or after the start offset as a length-one
span. -/
def seedClassSearcher (text : List Nat) (seed : Nat) (cls : List Nat) : Searcher :=
  ⟨fun s =>
    (firstIdxFrom (fun i => decide (text.getD i 0 = seed ∨ text.getD i 0 ∈ cls)) s
        text.length).map (fun i => (i, i + 1))⟩

/-- Small concrete searcher (text "aba", seed 'a') used to instantiate
universally quantified theorems at concrete inputs. -/
def demoSearcher : Searcher :=
  seedClassSearcher [97, 98, 97] 97 []

/-- The scanning loop of `find` with no label budget: a single unbounded scan
of the region, the reference behaviour for the batch-resumption equivalence. -/
def findAllLoop (S : Searcher) (lastSearch : Nat) : Nat → Nat → List (Nat × Nat)
  | 0, _ => []
  | fuel + 1, ns =>
    if ns < lastSearch then
      match S.next ns with
      | none => []
      | some (b, e) =>
        if lastSearch < e then [] else (b, e) :: findAllLoop S lastSearch fuel e
    else []

/-- A single unbounded scan of the region `[regionBegin, regionEnd)`,
normalized to single-character regions like `find`. -/
def scanAll (S : Searcher) (regionBegin regionEnd : Nat) : List (Nat × Nat) :=
  (findAllLoop S regionEnd (regionEnd + 1) regionBegin).map (fun m => (m.1, m.1 + 1))

/-- Successive batches in one session: each `next batch` round reverts the
labels, resets `last_index` to `0` (`find` is re-entered with a fresh label
count) and resumes `find` from the saved `next_search` cursor, until a pass
ends under budget (`next_search` becomes the exhausted sentinel `False`).
The raw matches of all batches are concatenated in order. -/
def batchLoop (S : Searcher) (lastSearch capacity : Nat) : Nat → Nat → List (Nat × Nat)
  | 0, _ => []
  | fuel + 1, ns =>
    match findLoop S lastSearch capacity (lastSearch + 1) ns 0 with
    | (ms, ns1, li1) =>
      if li1 < capacity then ms else ms ++ batchLoop S lastSearch capacity fuel ns1

/-- All matches of a batched session over region `[regionBegin, regionEnd)`
with per-batch alphabet capacity `capacity`, normalized like `find`. -/
def batchScan (S : Searcher) (regionBegin regionEnd capacity : Nat) : List (Nat × Nat) :=
  (batchLoop S regionEnd capacity (regionEnd + 1) regionBegin).map (fun m => (m.1, m.1 + 1))

/-- Python `list.index(x)`: position of the first occurrence of the value
(only evaluated where the value is known to occur). -/
def pyListIndex (l : List Nat) (x : Nat) : Nat := l.findIdx (fun y => y = x)

/-- `AceJumpCommand.view_for_index`:

    for breakpoint in self.breakpoints:
        if index < breakpoint:
            return self.breakpoints.index(breakpoint)
    return -1
-/
def view_for_index (breakpoints : List Nat) (index : Nat) : Int :=
  match breakpoints.find? (fun bp => decide (index < bp)) with
  | some bp => (pyListIndex breakpoints bp : Int)
  | none => -1

/-- Breakpoint construction of an assignment pass: `add_labels` appends the
running total of matches (`last_index`) once per processed buffer, so the
breakpoint list is the list of cumulative sums of the per-buffer counts. -/
def cumulative (acc : Nat) : List Nat → List Nat
  | [] => []
  | c :: cs => (acc + c) :: cumulative (acc + c) cs

/-- Breakpoints produced by per-buffer match counts. -/
def mkBreakpoints (counts : List Nat) : List Nat := cumulative 0 counts

/-- A host text view: its identity and the identity of its underlying buffer
(two split views of one document share a `buffer_id`). -/
structure ViewM where
  vid : Nat
  bufferId : Nat
deriving Repr, DecidableEq

/-- Result of one `AceJumpCommand.add_labels` coordinator pass. -/
structure PassResult where
  changedViews : List ViewM
  breakpoints : List Nat
  lastIndex : Nat
  nextSearch : Option Nat
deriving Repr, DecidableEq

/-- The buffer-iteration loop of `AceJumpCommand.add_labels`; `scan v li ns`
abstracts running the `add_ace_jump_labels` text command on view `v` with
module globals `last_index = li` and `next_search = ns`, returning their new
values:

    for view in self.views.copy():
        if view.buffer_id() in changed_buffers:
            break
        view.run_command("add_ace_jump_labels", ...)
        self.breakpoints.append(last_index)
        self.changed_views.append(view)
        changed_buffers.append(view.buffer_id())
        if next_search:
            break
        self.views.remove(view)
-/
def add_labels_loop (scan : ViewM → Nat → Option Nat → Nat × Option Nat) :
    List ViewM → Nat → Option Nat → List Nat → PassResult
  | [], li, ns, _ => ⟨[], [], li, ns⟩
  | v :: rest, li, ns, changedBuffers =>
    if v.bufferId ∈ changedBuffers then ⟨[], [], li, ns⟩
    else
      match scan v li ns with
      | (li1, some c) => ⟨[v], [li1], li1, some c⟩
      | (li1, none) =>
        match add_labels_loop scan rest li1 none (changedBuffers ++ [v.bufferId]) with
        | ⟨cv, bps, li2, ns2⟩ => ⟨v :: cv, li1 :: bps, li2, ns2⟩

/-- A concrete scan behaviour: every view reports no matches and leaves the
cursor exhausted (e.g. the seed character occurs nowhere). -/
def scanNone : ViewM → Nat → Option Nat → Nat × Option Nat := fun _ li _ => (li, none)

/-- Python `str.find(sub)` at running offset `i`. -/
def str_find_aux : List Nat → List Nat → Nat → Int
  | s, sub, i =>
    if sub.isPrefixOf s then (i : Int)
    else
      match s with
      | [] => -1
      | _ :: t => str_find_aux t sub (i + 1)

/-- Python `str.find(sub)`: lowest index where `sub` occurs in `s`, else -1. -/
def str_find (s sub : List Nat) : Int := str_find_aux s sub 0

/-- `AceJumpCommand.valid_target`:

    index = self.labels.find(target)
    return target != "" and index >= 0 and index < last_index
-/
def valid_target (labels target : List Nat) (lastIndex : Nat) : Bool :=
  decide (target ≠ []) && decide (0 ≤ str_find labels target) &&
    decide (str_find labels target < (lastIndex : Int))

/-- The observable session state touched by `run`/`submit`: per-view
selection (cursor offsets) and assigned syntax ids, whether label artifacts
(hint regions, faked carets) are present, the module-global `next_search`
and the module-global reentrancy flag `ace_jump_active`. -/
structure SessionState where
  curSel : List Nat
  curSyntaxIds : List Nat
  artifactsShown : Bool
  nextSearch : Option Nat
  ace_jump_active : Bool
deriving Repr, DecidableEq

/-- Start of `AceJumpCommand.run`: `ace_jump_active = True` (snapshots of
selection and syntax are taken and handed to `submit` separately). -/
def acejumpRun (st : SessionState) : SessionState :=
  { st with ace_jump_active := true }

/-- `AceJumpCommand.is_enabled`, shared by every start command:
`return not ace_jump_active`. -/
def acejumpIsEnabled (st : SessionState) : Bool := !st.ace_jump_active

/-- `AceJumpCommand.submit`: reset `next_search`, remove artifacts, restore
the selection and syntax snapshots, jump iff the typed target is valid
(the jump moves the selection to `hints[labels.find(target)]`), and clear the
reentrancy flag.  Returns the new state and the jump target offset, if any. -/
def submit (st : SessionState) (origSel origSyntaxIds : List Nat)
    (labels target : List Nat) (lastIndex : Nat) (hints : List Nat) :
    SessionState × Option Nat :=
  let st1 : SessionState :=
    { st with
      nextSearch := none
      artifactsShown := false
      curSel := origSel
      curSyntaxIds := origSyntaxIds }
  if valid_target labels target lastIndex then
    ({ st1 with
        curSel := [hints.getD (str_find labels target).toNat 0]
        ace_jump_active := false },
      some (hints.getD (str_find labels target).toNat 0))
  else
    ({ st1 with ace_jump_active := false }, none)

/-- `char_width_converter.h2f` on one codepoint: the table maps each of
`0x21..0x7E` to its full-width presentation form `+0xFEE0`, leaving every
other codepoint unchanged. -/
def h2f_char (c : Nat) : Nat := if 0x21 ≤ c ∧ c ≤ 0x7E then c + 0xFEE0 else c

/-- `char_width_converter.h2f` (`str.translate` over the half-to-full table). -/
def h2f (s : List Nat) : List Nat := s.map h2f_char

/-- Whether `CHINESE_REGEX_OBJ` (`[一-鿕]+`) matches at the start of
a string beginning with this codepoint. -/
def isChinese (c : Nat) : Bool := decide (0x4E00 ≤ c ∧ c ≤ 0x9FD5)

/-- The destructive branch of `AddAceJumpLabelsCommand.add_labels`:

    for idx, region in enumerate(regions):
        label = labels[last_index + idx - len(regions)]
        if self.hinting_mode == HINTING_MODE_REPLACE_CHAR:
            if CHINESE_REGEX_OBJ.match(self.view.substr(region)):
                label = char_width_converter.h2f(label)
            self.view.replace(edit, region, label)

Each region is a single character at `r.1`; replacing one character by one
character keeps all offsets stable, modelled by `List.set`.  The label index
is nonnegative in every reachable call (`find` just incremented `last_index`
once per produced region, so `last_index ≥ len(regions)`); the embedding uses
truncated `Nat` subtraction accordingly. -/
def annotateGo (labels : List Nat) (lastIndex nRegions : Nat) :
    List Nat → List (Nat × Nat) → Nat → List Nat
  | text, [], _ => text
  | text, r :: rest, idx =>
    annotateGo labels lastIndex nRegions
      (text.set r.1
        (if isChinese (text.getD r.1 0) then
          h2f_char (labels.getD (lastIndex + idx - nRegions) 0)
        else labels.getD (lastIndex + idx - nRegions) 0))
      rest (idx + 1)

/-- Replace-char annotation over all regions of one pass. -/
def add_labels_replace (text : List Nat) (regions : List (Nat × Nat))
    (labels : List Nat) (lastIndex : Nat) : List Nat :=
  annotateGo labels lastIndex regions.length text regions 0

/-- The pinyin dictionary passed to `Pinyin.__init__` by `init_xpy`:
hanzi codepoint → raw dictionary value (e.g. the codepoints of "NI3");
`init_xpy` keys the dict by the hex string of the codepoint, so lookup is by
exact codepoint. -/
abbrev PinyinDict := List (Nat × List Nat)

/-- Dictionary lookup (`self.dict[key]`, `none` models `KeyError`). -/
def dictLookup (d : PinyinDict) (c : Nat) : Option (List Nat) :=
  (d.find? (fun kv => decide (kv.1 = c))).map Prod.snd

/-- Python `value.split()[0]` (first whitespace-separated token; dictionary
values hold readings separated by spaces).  `strip()` of a token is itself. -/
def firstToken (v : List Nat) : List Nat :=
  (v.dropWhile (fun c => decide (c = 32 ∨ c = 9))).takeWhile
    (fun c => decide (¬(c = 32 ∨ c = 9)))

/-- Python `str.lower` on a codepoint, restricted to ASCII letters (readings
in the dictionary are ASCII pinyin). -/
def toLowerCp (c : Nat) : Nat := if 65 ≤ c ∧ c ≤ 90 then c + 32 else c

/-- The word `Pinyin.get_pinyin` appends for a dictionary hit with the
arguments `find` uses (`tone_marks=""`, `convert="lower"`):
`self.dict[key].split()[0].strip()[:-1]` lower-cased (the trailing tone
digit is dropped by `[:-1]`). -/
def pinyinWord (v : List Nat) : List Nat := ((firstToken v).dropLast).map toLowerCp

/-- The part `Pinyin.get_initials` appends for a dictionary hit:
`self.dict[key].split(" ")[0][0]` (no lower-casing; Python raises on an empty
first chunk, which well-formed dictionary values exclude). -/
def initialsWord (v : List Nat) : List Nat :=
  [(v.takeWhile (fun c => decide (c ≠ 32))).headD 0]

/-- The shared accumulation loop of `Pinyin.get_pinyin`/`Pinyin.get_initials`
(the two methods differ only in the word computed for a dictionary hit):

    result = []; flag = 1
    for char in chars:
        try:
            result.append(<word for char>); flag = 1
        except KeyError:
            if flag: result.append(char)
            else: result[-1] += char
            flag = 0
    return splitter.join(result)

`wordFor c = none` models the `KeyError` case; `result[-1] += char` extends
the last accumulated part. -/
def pinyinScanGo (wordFor : Nat → Option (List Nat)) :
    List Nat → List (List Nat) → Bool → List (List Nat)
  | [], result, _ => result
  | c :: rest, result, flag =>
    match wordFor c with
    | some w => pinyinScanGo wordFor rest (result ++ [w]) true
    | none =>
      if flag then pinyinScanGo wordFor rest (result ++ [[c]]) false
      else
        pinyinScanGo wordFor rest
          (result.dropLast ++ [(result.getLast?.getD []) ++ [c]]) false

/-- The `result` list of `Pinyin.get_pinyin` before joining. -/
def get_pinyin_parts (d : PinyinDict) (chars : List Nat) : List (List Nat) :=
  pinyinScanGo (fun c => (dictLookup d c).map pinyinWord) chars [] true

/-- `Pinyin.get_pinyin(chars, splitter)` with default `tone_marks`/`convert`:
`splitter.join(result)`. -/
def get_pinyin (d : PinyinDict) (chars splitter : List Nat) : List Nat :=
  splitter.intercalate (get_pinyin_parts d chars)

/-- The `result` list of `Pinyin.get_initials` before joining. -/
def get_initials_parts (d : PinyinDict) (chars : List Nat) : List (List Nat) :=
  pinyinScanGo (fun c => (dictLookup d c).map initialsWord) chars [] true

/-- `Pinyin.get_initials(chars, splitter)`. -/
def get_initials (d : PinyinDict) (chars splitter : List Nat) : List Nat :=
  splitter.intercalate (get_initials_parts d chars)

/-- Specification-side description of the `result` list built by the loop
above: one part per character found in the dictionary, and each maximal run
of consecutive dictionary-absent characters collapsed into a single verbatim
part. -/
def pinyinPartsSpec (wordFor : Nat → Option (List Nat)) : List Nat → List (List Nat)
  | [] => []
  | c :: rest =>
    match wordFor c with
    | some w => w :: pinyinPartsSpec wordFor rest
    | none =>
      (c :: rest.takeWhile (fun x => (wordFor x).isNone)) ::
        pinyinPartsSpec wordFor (rest.dropWhile (fun x => (wordFor x).isNone))
termination_by chars => chars.length
decreasing_by
  all_goals simp only [List.length_cons]
  all_goals first
    | exact Nat.lt_succ_of_le (List.Sublist.length_le (List.dropWhile_sublist _))
    | omega

/-- Fuel-driven worker for `chineseRuns` (the fuel, at least the text length,
only drives termination: each step consumes at least one character). -/
def chineseRunsGo : Nat → List Nat → List (List Nat)
  | 0, _ => []
  | _, [] => []
  | fuel + 1, c :: rest =>
    if isChinese c then
      (c :: rest.takeWhile isChinese) :: chineseRunsGo fuel (rest.dropWhile isChinese)
    else chineseRunsGo fuel rest

/-- The maximal runs found by `CHINESE_REGEX_OBJ.finditer(content)`: each is
a maximal block of consecutive Chinese characters of the content. -/
def chineseRuns (l : List Nat) : List (List Nat) := chineseRunsGo l.length l

/-- The phonetic-augmentation step of `AddAceJumpLabelsCommand.find` for a
single-character seed pattern:

    matched_chinese_chars = set()
    for match in CHINESE_REGEX_OBJ.finditer(content):
        chinese_string = content[slice(*match.span())]
        for idx, char_pinyin in enumerate(xpy.get_pinyin(chinese_string, "-").split("-")):
            if re.match(regex, char_pinyin[0]):
                matched_chinese_chars.add(chinese_string[idx])

`re.match(seed_regex, char_pinyin[0])` is modelled as equality of the part's
first letter with the seed character (the regex is the escaped literal seed
character at this stage); the splitter `"-"` is codepoint 45.  The set is
modelled as a list whose membership is what matters. -/
def matchedChineseChars (d : PinyinDict) (seed : Nat) (content : List Nat) : List Nat :=
  (chineseRuns content).flatMap (fun run =>
    ((get_pinyin d run [45]).splitOn 45).enum.filterMap (fun p =>
      if p.2.headD 0 = seed then some (run.getD p.1 0) else none))

/-- `AddAceJumpLabelsCommand.find` in char mode with `should_find_chinese`
enabled and the default case-sensitive search: scan the region content for
Chinese characters, build the alternation class, and run the budgeted scan
loop with the augmented pattern `seed|[cls]` (identical to the plain seed
search when the class is empty, exactly as the source only appends the class
when the set is nonempty).  The session starts with no saved cursor and
`last_index = 0`. -/
def findWithChinese (d : PinyinDict) (text : List Nat) (regionBegin regionEnd : Nat)
    (seed : Nat) (maxLabels : Nat) : FindResult :=
  find (seedClassSearcher text seed
      (matchedChineseChars d seed ((text.drop regionBegin).take (regionEnd - regionBegin))))
    regionBegin regionEnd none maxLabels 0

/-- The initial letter the augmentation compares with the seed: the first
letter of the processed reading of a dictionary character. -/
def readingInitial (d : PinyinDict) (c : Nat) : Option Nat :=
  (dictLookup d c).map (fun v => (pinyinWord v).headD 0)

/-- All positions `ns ≤ i < ns + count` whose index satisfies `p`, in
increasing order: the reference result of an exhaustive scan. -/
def matchPositions (p : Nat → Bool) : Nat → Nat → List Nat
  | _, 0 => []
  | ns, count + 1 =>
    if p ns then ns :: matchPositions p (ns + 1) count
    else matchPositions p (ns + 1) count

/-- Invariants of the scanning loop for a well-formed searcher: every raw match
lies inside `[ns, lastSearch]` and is nonempty, matches are pairwise ordered
(`end ≤` next `begin`), `last_index` counts the matches, the final cursor is
the end of the last match (or unchanged when none was found), the cursor
advances at least one position per match, and `last_index` never exceeds the
budget. -/
theorem findLoop_spec (S : Searcher) (hS : S.Wf) (lastSearch maxLabels : Nat) :
    ∀ fuel ns li ms ns1 li1,
      findLoop S lastSearch maxLabels fuel ns li = (ms, ns1, li1) →
      (∀ m ∈ ms, ns ≤ m.1 ∧ m.1 < m.2 ∧ m.2 ≤ lastSearch) ∧
        List.Pairwise (fun a b => a.2 ≤ b.1) ms ∧
        li1 = li + ms.length ∧
        ns1 = (ms.getLast?).elim ns Prod.snd ∧
        ns + ms.length ≤ ns1 ∧
        li1 ≤ max li maxLabels := by
  intro fuel
  induction fuel with
  | zero =>
    intro ns li ms ns1 li1 h
    simp only [findLoop, Prod.mk.injEq] at h
    obtain ⟨rfl, rfl, rfl⟩ := h
    simp
  | succ fuel ih =>
    intro ns li ms ns1 li1 h
    simp only [findLoop] at h
    split at h
    · rename_i hguard
      obtain ⟨hlt, hli⟩ := hguard
      split at h
      · -- S.next ns = none
        simp only [Prod.mk.injEq] at h
        obtain ⟨rfl, rfl, rfl⟩ := h
        simp
      · -- S.next ns = some (b, e)
        rename_i b e hnext
        split at h
        · simp only [Prod.mk.injEq] at h
          obtain ⟨rfl, rfl, rfl⟩ := h
          simp
        · rename_i hle
          obtain ⟨ms', ns1', li1', hfl⟩ :
              ∃ a c d, findLoop S lastSearch maxLabels fuel e (li + 1) = (a, c, d) :=
            ⟨_, _, _, rfl⟩
          rw [hfl] at h
          simp only [Prod.mk.injEq] at h
          obtain ⟨rfl, rfl, rfl⟩ := h
          obtain ⟨hsb, hbe⟩ := hS ns b e hnext
          obtain ⟨h1, h2, h3, h4, h5, h6⟩ := ih e (li + 1) ms' ns1' li1' hfl
          refine ⟨?_, ?_, ?_, ?_, ?_, ?_⟩
          · intro m hm
            rw [List.mem_cons] at hm
            rcases hm with rfl | hm
            · exact ⟨hsb, hbe, by omega⟩
            · have hm' := h1 m hm
              exact ⟨by omega, hm'.2.1, hm'.2.2⟩
          · exact List.pairwise_cons.mpr ⟨fun m hm => (h1 m hm).1, h2⟩
          · simp only [List.length_cons]; omega
          · cases ms' with
            | nil => simpa using h4
            | cons m t =>
              rw [List.getLast?_cons_cons]
              cases hg : (m :: t).getLast? with
              | none =>
                rw [List.getLast?_eq_none_iff] at hg
                cases hg
              | some l =>
                rw [hg] at h4
                exact h4
          · simp only [List.length_cons]; omega
          · omega
    · simp only [Prod.mk.injEq] at h
      obtain ⟨rfl, rfl, rfl⟩ := h
      simp

/-- `firstIdxFromFuel` returns the least satisfying index in its window. -/
theorem firstIdxFromFuel_some (p : Nat → Bool) :
    ∀ k s i, firstIdxFromFuel p k s = some i →
      s ≤ i ∧ i < s + k ∧ p i = true ∧ ∀ j, s ≤ j → j < i → p j = false := by
  intro k
  induction k with
  | zero => intro s i h; simp [firstIdxFromFuel] at h
  | succ k ih =>
    intro s i h
    simp only [firstIdxFromFuel] at h
    split at h
    · rename_i hp
      cases h
      exact ⟨le_refl _, by omega, hp, fun j h1 h2 => absurd h2 (by omega)⟩
    · rename_i hp
      obtain ⟨h1, h2, h3, h4⟩ := ih (s + 1) i h
      refine ⟨by omega, by omega, h3, ?_⟩
      intro j hj1 hj2
      rcases Nat.eq_or_lt_of_le hj1 with rfl | hlt
      · simpa using hp
      · exact h4 j (by omega) hj2

/-- `firstIdxFromFuel` fails only if no index in its window satisfies `p`. -/
theorem firstIdxFromFuel_none (p : Nat → Bool) :
    ∀ k s, firstIdxFromFuel p k s = none → ∀ j, s ≤ j → j < s + k → p j = false := by
  intro k
  induction k with
  | zero => intro s _ j h1 h2; omega
  | succ k ih =>
    intro s h j h1 h2
    simp only [firstIdxFromFuel] at h
    split at h
    · cases h
    · rename_i hp
      rcases Nat.eq_or_lt_of_le h1 with rfl | hlt
      · simpa using hp
      · exact ih (s + 1) h j (by omega) (by omega)

/-- The concrete char-alternation searcher satisfies the host contract. -/
theorem seedClassSearcher_wf (text : List Nat) (seed : Nat) (cls : List Nat) :
    (seedClassSearcher text seed cls).Wf := by
  intro s b e h
  simp only [seedClassSearcher] at h
  rw [Option.map_eq_some'] at h
  obtain ⟨i, hf, heq⟩ := h
  obtain ⟨h1, -, -, -⟩ := firstIdxFromFuel_some _ _ _ _ hf
  simp only [Prod.mk.injEq] at heq
  obtain ⟨rfl, rfl⟩ := heq
  exact ⟨h1, Nat.lt_succ_self i⟩

/-- One extra unit of fuel does not change the unbounded scan once the fuel
covers the remaining region. -/
theorem findAllLoop_succ (S : Searcher) (hS : S.Wf) (lastSearch : Nat) :
    ∀ fuel ns, lastSearch ≤ ns + fuel →
      findAllLoop S lastSearch (fuel + 1) ns = findAllLoop S lastSearch fuel ns := by
  intro fuel
  induction fuel with
  | zero =>
    intro ns h
    simp only [findAllLoop]
    rw [if_neg (by omega)]
  | succ fuel ih =>
    intro ns h
    conv_lhs => rw [findAllLoop]
    conv_rhs => rw [findAllLoop]
    split
    · rename_i hlt
      cases hnext : S.next ns with
      | none => rfl
      | some be =>
        obtain ⟨b, e⟩ := be
        simp only
        split
        · rfl
        · rename_i hle
          obtain ⟨hsb, hbe⟩ := hS ns b e hnext
          rw [ih e (by omega)]
    · rfl

/-- Fuel is irrelevant for the unbounded scan beyond the remaining region. -/
theorem findAllLoop_fuel_eq (S : Searcher) (hS : S.Wf) (lastSearch : Nat)
    {f1 f2 ns : Nat} (h1 : lastSearch ≤ ns + f1) (h2 : f1 ≤ f2) :
    findAllLoop S lastSearch f2 ns = findAllLoop S lastSearch f1 ns := by
  obtain ⟨k, rfl⟩ : ∃ k, f2 = f1 + k := ⟨f2 - f1, by omega⟩
  clear h2
  induction k with
  | zero => rfl
  | succ k ih =>
    rw [show f1 + (k + 1) = (f1 + k) + 1 from rfl,
      findAllLoop_succ S hS lastSearch (f1 + k) ns (by omega), ih]

/-- Composition: a budgeted pass that stops under budget produces exactly the
unbounded scan; a pass that stops on the budget produces a prefix of the
unbounded scan, which continues from the pass's final cursor. -/
theorem findLoop_findAll (S : Searcher) (lastSearch maxLabels : Nat) :
    ∀ fuel ns li ms ns1 li1,
      findLoop S lastSearch maxLabels fuel ns li = (ms, ns1, li1) →
      (li1 < maxLabels → findAllLoop S lastSearch fuel ns = ms) ∧
        (li1 = maxLabels →
          findAllLoop S lastSearch fuel ns =
            ms ++ findAllLoop S lastSearch (fuel - ms.length) ns1) := by
  intro fuel
  induction fuel with
  | zero =>
    intro ns li ms ns1 li1 h
    simp only [findLoop, Prod.mk.injEq] at h
    obtain ⟨rfl, rfl, rfl⟩ := h
    exact ⟨fun _ => rfl, fun _ => rfl⟩
  | succ fuel ih =>
    intro ns li ms ns1 li1 h
    simp only [findLoop] at h
    split at h
    · rename_i hguard
      obtain ⟨hlt, hli⟩ := hguard
      split at h
      · rename_i hnext
        simp only [Prod.mk.injEq] at h
        obtain ⟨rfl, rfl, rfl⟩ := h
        constructor
        · intro _
          simp only [findAllLoop, if_pos hlt, hnext]
        · intro h'
          exact absurd h' (by omega)
      · rename_i b e hnext
        split at h
        · rename_i hgt
          simp only [Prod.mk.injEq] at h
          obtain ⟨rfl, rfl, rfl⟩ := h
          constructor
          · intro _
            simp only [findAllLoop, if_pos hlt, hnext, if_pos hgt]
          · intro h'
            exact absurd h' (by omega)
        · rename_i hle
          obtain ⟨ms', ns1', li1', hfl⟩ :
              ∃ a c d, findLoop S lastSearch maxLabels fuel e (li + 1) = (a, c, d) :=
            ⟨_, _, _, rfl⟩
          rw [hfl] at h
          simp only [Prod.mk.injEq] at h
          obtain ⟨rfl, rfl, rfl⟩ := h
          obtain ⟨iha, ihb⟩ := ih e (li + 1) ms' ns1' li1' hfl
          constructor
          · intro hlt1
            simp only [findAllLoop, if_pos hlt, hnext, if_neg hle]
            rw [iha hlt1]
          · intro heq1
            simp only [findAllLoop, if_pos hlt, hnext, if_neg hle]
            rw [ihb heq1, List.length_cons, Nat.succ_sub_succ, List.cons_append]
    · rename_i hguard
      simp only [Prod.mk.injEq] at h
      obtain ⟨rfl, rfl, rfl⟩ := h
      rw [Decidable.not_and_iff_or_not] at hguard
      constructor
      · intro hlt1
        rcases hguard with hg | hg
        · simp only [findAllLoop, if_neg hg]
        · exact absurd hlt1 hg
      · intro heq1
        simp only [List.length_nil, Nat.sub_zero, List.nil_append]

/-- Batched scanning with any per-batch capacity at least 1 reproduces the
unbounded scan of the region tail starting at the given cursor. -/
theorem batchLoop_eq (S : Searcher) (hS : S.Wf) (lastSearch capacity : Nat)
    (hc : 1 ≤ capacity) :
    ∀ m fuel ns, lastSearch + 1 ≤ ns + m → m ≤ fuel →
      batchLoop S lastSearch capacity fuel ns =
        findAllLoop S lastSearch (lastSearch + 1) ns := by
  intro m
  induction m with
  | zero =>
    intro fuel ns h1 h2
    have hrhs : findAllLoop S lastSearch (lastSearch + 1) ns = [] := by
      conv_lhs => rw [findAllLoop]
      rw [if_neg (by omega)]
    rw [hrhs]
    cases fuel with
    | zero => rfl
    | succ f =>
      have hfl : findLoop S lastSearch capacity (lastSearch + 1) ns 0 = ([], ns, 0) := by
        conv_lhs => rw [findLoop]
        rw [if_neg (by omega)]
      simp only [batchLoop, hfl]
      rw [if_pos (by omega)]
  | succ m ihm =>
    intro fuel ns h1 h2
    cases fuel with
    | zero => omega
    | succ f =>
      obtain ⟨ms, ns1, li1, hfl⟩ :
          ∃ a c d, findLoop S lastSearch capacity (lastSearch + 1) ns 0 = (a, c, d) :=
        ⟨_, _, _, rfl⟩
      simp only [batchLoop, hfl]
      obtain ⟨-, -, hlen, -, hadv, hmax⟩ :=
        findLoop_spec S hS lastSearch capacity (lastSearch + 1) ns 0 ms ns1 li1 hfl
      obtain ⟨ca, cb⟩ := findLoop_findAll S lastSearch capacity (lastSearch + 1) ns 0 ms ns1 li1 hfl
      split
      · rename_i hlt
        exact (ca hlt).symm
      · rename_i hnlt
        have hcap : li1 = capacity := by omega
        rw [cb hcap]
        have hlen' : ms.length = capacity := by omega
        have hns1 : ns + capacity ≤ ns1 := by omega
        have hrec : batchLoop S lastSearch capacity f ns1 =
            findAllLoop S lastSearch (lastSearch + 1) ns1 :=
          ihm f ns1 (by omega) (by omega)
        rw [hrec]
        congr 1
        have hf1 : lastSearch ≤ ns1 + (lastSearch + 1 - ms.length) := by omega
        exact findAllLoop_fuel_eq S hS lastSearch hf1 (by omega)

/-- Claim C1: for every well-formed pattern searcher, region, saved start
cursor, label budget and entry label count, the regions produced by one
`AddAceJumpLabelsCommand.find` pass are all single-character spans
`[b, b + 1)`, their begin offsets are strictly increasing, and hence the
spans are mutually non-overlapping. -/
theorem c1_single_char_strictly_increasing (S : Searcher) (hS : S.Wf)
    (rb re : Nat) (cur : Option Nat) (maxL li : Nat) :
    (∀ m ∈ (find S rb re cur maxL li).regions, m.2 = m.1 + 1) ∧
      ((find S rb re cur maxL li).regions.map Prod.fst).Pairwise (· < ·) ∧
      (find S rb re cur maxL li).regions.Pairwise (fun a b => a.2 ≤ b.1) := by
  obtain ⟨ms, ns1, li1, hfl⟩ : ∃ a c d, findRaw S rb re cur maxL li = (a, c, d) :=
    ⟨_, _, _, rfl⟩
  obtain ⟨h1, h2, -, -, -, -⟩ :=
    findLoop_spec S hS re maxL (re + 1) (cur.getD rb) li ms ns1 li1 hfl
  have hreg : (find S rb re cur maxL li).regions = ms.map (fun m => (m.1, m.1 + 1)) := by
    simp [find, hfl]
  rw [hreg]
  refine ⟨?_, ?_, ?_⟩
  · intro m hm
    rw [List.mem_map] at hm
    obtain ⟨a, -, rfl⟩ := hm
    rfl
  · rw [List.map_map]
    rw [show (Prod.fst ∘ fun m : Nat × Nat => (m.1, m.1 + 1)) = Prod.fst from rfl]
    rw [List.pairwise_map]
    exact List.Pairwise.imp_of_mem
      (fun {a b} ha _ hab => lt_of_lt_of_le (h1 a ha).2.1 hab) h2
  · rw [List.pairwise_map]
    exact List.Pairwise.imp_of_mem
      (fun {a b} ha _ hab => by
        have := (h1 a ha).2.1
        simp only
        omega) h2

/-- Witness for C1 at a concrete searcher (text "aba", seed 'a'). -/
theorem c1_single_char_strictly_increasing_witness :
    demoSearcher.Wf ∧
      ((∀ m ∈ (find demoSearcher 0 3 none 2 0).regions, m.2 = m.1 + 1) ∧
        ((find demoSearcher 0 3 none 2 0).regions.map Prod.fst).Pairwise (· < ·) ∧
        (find demoSearcher 0 3 none 2 0).regions.Pairwise (fun a b => a.2 ≤ b.1)) :=
  ⟨seedClassSearcher_wf _ _ _,
    c1_single_char_strictly_increasing demoSearcher (seedClassSearcher_wf _ _ _) 0 3 none 2 0⟩

/-- Claim C2: for every region and alphabet capacity at least 1, scanning the
region in successive budget-bounded batches, each resumed from the cursor
saved by the previous one with label indices restarting at 0, concatenates to
exactly the match sequence of a single unbounded scan: no match duplicated,
none skipped. -/
theorem c2_batches_eq_unbounded_scan (S : Searcher) (hS : S.Wf)
    (regionBegin regionEnd capacity : Nat) (hc : 1 ≤ capacity) :
    batchScan S regionBegin regionEnd capacity = scanAll S regionBegin regionEnd := by
  unfold batchScan scanAll
  rw [batchLoop_eq S hS regionEnd capacity hc (regionEnd + 1 - regionBegin)
    (regionEnd + 1) regionBegin (by omega) (by omega)]

/-- Witness for C2: capacity 1 on the concrete "aba" searcher. -/
theorem c2_batches_eq_unbounded_scan_witness :
    demoSearcher.Wf ∧ 1 ≤ 1 ∧ batchScan demoSearcher 0 3 1 = scanAll demoSearcher 0 3 :=
  ⟨seedClassSearcher_wf _ _ _, le_refl 1,
    c2_batches_eq_unbounded_scan demoSearcher (seedClassSearcher_wf _ _ _) 0 3 1 (le_refl 1)⟩

/-- Claim C4: entering a pass with budget headroom, if the pass stops because
the budget is reached then the saved cursor is the offset just past the last
raw match and is not the exhausted sentinel; if it stops under budget (no
further match, or the next match ends past the region end) the cursor is the
exhausted sentinel `False` (modelled `none`). -/
theorem c4_cursor_exhaustion (S : Searcher) (hS : S.Wf) (rb re : Nat)
    (cur : Option Nat) (maxL li : Nat) (hli : li < maxL) :
    ((find S rb re cur maxL li).lastIndex < maxL →
        (find S rb re cur maxL li).nextSearch = none) ∧
      ((find S rb re cur maxL li).lastIndex = maxL →
        ∃ last, (findRaw S rb re cur maxL li).1.getLast? = some last ∧
          (find S rb re cur maxL li).nextSearch = some last.2 ∧
          (find S rb re cur maxL li).regions.getLast? = some (last.1, last.1 + 1)) := by
  obtain ⟨ms, ns1, li1, hfl⟩ : ∃ a c d, findRaw S rb re cur maxL li = (a, c, d) :=
    ⟨_, _, _, rfl⟩
  obtain ⟨-, -, hlen, hcur, -, -⟩ :=
    findLoop_spec S hS re maxL (re + 1) (cur.getD rb) li ms ns1 li1 hfl
  have hli1 : (find S rb re cur maxL li).lastIndex = li1 := by simp [find, hfl]
  constructor
  · intro hlt
    rw [hli1] at hlt
    simp [find, hfl, if_pos hlt]
  · intro heq
    rw [hli1] at heq
    have hne : ms ≠ [] := by
      intro hnil
      rw [hnil] at hlen
      simp at hlen
      omega
    obtain ⟨last, hlast⟩ : ∃ l, ms.getLast? = some l := by
      cases hg : ms.getLast? with
      | none => rw [List.getLast?_eq_none_iff] at hg; exact absurd hg hne
      | some l => exact ⟨l, rfl⟩
    refine ⟨last, by rw [hfl]; exact hlast, ?_, ?_⟩
    · have hns : (find S rb re cur maxL li).nextSearch = some ns1 := by
        simp only [find, hfl]
        rw [if_neg (by omega)]
      rw [hns, hcur, hlast]
      rfl
    · have : (find S rb re cur maxL li).regions = ms.map (fun m => (m.1, m.1 + 1)) := by
        simp [find, hfl]
      rw [this, List.getLast?_map, hlast]
      rfl

/-- Witness for C4 at a concrete searcher with budget headroom. -/
theorem c4_cursor_exhaustion_witness :
    demoSearcher.Wf ∧ 0 < 2 ∧
      (((find demoSearcher 0 3 none 2 0).lastIndex < 2 →
          (find demoSearcher 0 3 none 2 0).nextSearch = none) ∧
        ((find demoSearcher 0 3 none 2 0).lastIndex = 2 →
          ∃ last, (findRaw demoSearcher 0 3 none 2 0).1.getLast? = some last ∧
            (find demoSearcher 0 3 none 2 0).nextSearch = some last.2 ∧
            (find demoSearcher 0 3 none 2 0).regions.getLast? = some (last.1, last.1 + 1))) :=
  ⟨seedClassSearcher_wf _ _ _, by omega,
    c4_cursor_exhaustion demoSearcher (seedClassSearcher_wf _ _ _) 0 3 none 2 0 (by omega)⟩

/-- `list.index` of the first value found by the scan equals the scan's
position: any earlier occurrence of the same value would itself have been
found first. -/
theorem view_for_index_value_pos (index : Nat) :
    ∀ (breakpoints : List Nat) (bp : Nat),
      breakpoints.find? (fun b => decide (index < b)) = some bp →
      pyListIndex breakpoints bp = breakpoints.findIdx (fun b => decide (index < b)) := by
  intro breakpoints
  induction breakpoints with
  | nil => intro bp h; simp [List.find?] at h
  | cons a l ih =>
    intro bp h
    by_cases hp : index < a
    · rw [List.find?_cons_of_pos _ (by simpa using hp)] at h
      cases h
      simp [pyListIndex, List.findIdx_cons, hp]
    · rw [List.find?_cons_of_neg _ (by simpa using hp)] at h
      have hbp : index < bp := by simpa using List.find?_some h
      have hne : (decide (a = bp)) = false := by simp; omega
      have hp' : (decide (index < a)) = false := by simp; omega
      have hih := ih bp h
      simp only [pyListIndex, List.findIdx_cons, hne, hp', cond_false] at *
      omega

/-- When `a ≤ index`, the head breakpoint is skipped and, if the tail has a
breakpoint above `index`, `view_for_index` of the whole list is one more than
on the tail. -/
theorem view_for_index_cons_ge (a : Nat) (t : List Nat) (index : Nat) (ha : a ≤ index) :
    view_for_index (a :: t) index =
      (match t.find? (fun bp => decide (index < bp)) with
       | some _ => view_for_index t index + 1
       | none => -1) := by
  simp only [view_for_index]
  rw [List.find?_cons_of_neg _ (by simp; omega)]
  cases hf : t.find? (fun bp => decide (index < bp)) with
  | none => rfl
  | some bp =>
    have hbp : index < bp := by simpa using List.find?_some hf
    have hne : (decide (a = bp)) = false := by simp; omega
    simp only [pyListIndex, List.findIdx_cons, hne, cond_false]
    push_cast
    ring

/-- Every breakpoint of a pass is at most the grand total of matches. -/
theorem cumulative_le_total (counts : List Nat) :
    ∀ acc bp, bp ∈ cumulative acc counts → bp ≤ acc + counts.sum := by
  induction counts with
  | nil => intro acc bp h; simp [cumulative] at h
  | cons c cs ih =>
    intro acc bp h
    simp only [cumulative, List.mem_cons] at h
    rcases h with rfl | h
    · simp only [List.sum_cons]
      omega
    · have := ih (acc + c) bp h
      simp only [List.sum_cons]
      omega

/-- If any match exists, the grand total is itself a breakpoint. -/
theorem cumulative_mem_total (counts : List Nat) :
    ∀ acc, counts ≠ [] → (acc + counts.sum) ∈ cumulative acc counts := by
  induction counts with
  | nil => intro acc h; exact absurd rfl h
  | cons c cs ih =>
    intro acc _
    by_cases hcs : cs = []
    · subst hcs
      simp [cumulative]
    · simp only [cumulative, List.mem_cons, List.sum_cons]
      right
      have heq : acc + (c + cs.sum) = acc + c + cs.sum := by omega
      rw [heq]
      exact ih (acc + c) hcs

/-- Locating a flat index inside the buffer that produced it. -/
theorem cumulative_locate (counts : List Nat) :
    ∀ acc i j, i < counts.length → j < counts.getD i 0 →
      view_for_index (cumulative acc counts) (acc + (counts.take i).sum + j) = (i : Int) := by
  induction counts with
  | nil => intro acc i j hi _; simp at hi
  | cons c cs ih =>
    intro acc i j hi hj
    cases i with
    | zero =>
      simp only [List.take_zero, List.sum_nil, Nat.add_zero] at *
      have hj' : j < c := by simpa using hj
      simp only [cumulative, view_for_index]
      rw [List.find?_cons_of_pos _ (by simp; omega)]
      simp [pyListIndex, List.findIdx_cons]
    | succ i' =>
      have hi' : i' < cs.length := by simpa using hi
      have hj' : j < cs.getD i' 0 := by simpa using hj
      have hrec := ih (acc + c) i' j hi' hj'
      have hidx : acc + ((c :: cs).take (i' + 1)).sum + j =
          (acc + c) + (cs.take i').sum + j := by
        simp [List.take_succ_cons, List.sum_cons]
        omega
      rw [hidx]
      simp only [cumulative]
      rw [view_for_index_cons_ge (acc + c) _ _ (by omega)]
      have hfind : (cumulative (acc + c) cs).find?
          (fun bp => decide (acc + c + (cs.take i').sum + j < bp)) ≠ none := by
        intro hnone
        simp only [view_for_index, hnone] at hrec
        omega
      cases hf : (cumulative (acc + c) cs).find?
          (fun bp => decide (acc + c + (cs.take i').sum + j < bp)) with
      | none => exact absurd hf hfind
      | some bp =>
        simp only [hf]
        rw [hrec]
        push_cast
        ring

/-- No breakpoint above the index means rank -1. -/
theorem view_for_index_notfound (breakpoints : List Nat) (index : Nat)
    (h : ∀ bp ∈ breakpoints, bp ≤ index) :
    view_for_index breakpoints index = -1 := by
  simp only [view_for_index]
  have : breakpoints.find? (fun bp => decide (index < bp)) = none := by
    rw [List.find?_eq_none]
    intro a ha
    simp
    exact h a ha
  rw [this]

/-- Claim C3: over the breakpoint list of an assignment pass (cumulative
match counts, one per processed buffer), `view_for_index` maps every flat
label index assigned in the pass to the rank of the buffer that produced it;
it equals the position of the first breakpoint strictly greater than the
index whenever the index is below the total, and it returns rank -1 whenever
the flat index is not below the last breakpoint (the total). -/
theorem c3_view_for_index_locates (counts : List Nat) :
    (∀ i j, i < counts.length → j < counts.getD i 0 →
        view_for_index (mkBreakpoints counts) ((counts.take i).sum + j) = (i : Int)) ∧
      (∀ index, index < counts.sum →
        view_for_index (mkBreakpoints counts) index =
          ((mkBreakpoints counts).findIdx (fun bp => decide (index < bp)) : Int)) ∧
      (∀ index, counts.sum ≤ index →
        view_for_index (mkBreakpoints counts) index = -1) := by
  refine ⟨?_, ?_, ?_⟩
  · intro i j hi hj
    have := cumulative_locate counts 0 i j hi hj
    simpa using this
  · intro index hidx
    have hne : counts ≠ [] := by
      intro h
      rw [h] at hidx
      simp at hidx
    have hmem : (0 + counts.sum) ∈ cumulative 0 counts := cumulative_mem_total counts 0 hne
    have hfind : (mkBreakpoints counts).find? (fun bp => decide (index < bp)) ≠ none := by
      intro hnone
      rw [List.find?_eq_none] at hnone
      have := hnone _ hmem
      simp at this
      omega
    cases hf : (mkBreakpoints counts).find? (fun bp => decide (index < bp)) with
    | none => exact absurd hf hfind
    | some bp =>
      simp only [view_for_index, hf]
      rw [view_for_index_value_pos index (mkBreakpoints counts) bp hf]
  · intro index hidx
    apply view_for_index_notfound
    intro bp hbp
    have := cumulative_le_total counts 0 bp hbp
    omega

/-- Witness for C3 on the concrete pass counts [2, 0, 3]
(breakpoints [2, 2, 5]). -/
theorem c3_view_for_index_locates_witness :
    view_for_index (mkBreakpoints [2, 0, 3]) (([2, 0, 3].take 2).sum + 1) = (2 : Int) ∧
      view_for_index (mkBreakpoints [2, 0, 3]) 4 =
        ((mkBreakpoints [2, 0, 3]).findIdx (fun bp => decide (4 < bp)) : Int) ∧
      view_for_index (mkBreakpoints [2, 0, 3]) 5 = -1 :=
  ⟨(c3_view_for_index_locates [2, 0, 3]).1 2 1 (by decide) (by decide),
    (c3_view_for_index_locates [2, 0, 3]).2.1 4 (by decide),
    (c3_view_for_index_locates [2, 0, 3]).2.2 5 (by decide)⟩

/-- Counterexample to C6 as stated: with three views over buffers [1, 1, 2],
the second view duplicates the first view's buffer and is skipped, but the
loop `break`s instead of continuing, so the third view — a distinct buffer
listed after the duplicate — is left unprocessed. -/
theorem c6_counterexample :
    (ViewM.mk 1 1).bufferId = (ViewM.mk 0 1).bufferId ∧
      (ViewM.mk 2 2).bufferId ≠ (ViewM.mk 0 1).bufferId ∧
      (ViewM.mk 2 2).bufferId ≠ (ViewM.mk 1 1).bufferId ∧
      (add_labels_loop scanNone [⟨0, 1⟩, ⟨1, 1⟩, ⟨2, 2⟩] 0 none []).changedViews =
        [⟨0, 1⟩] ∧
      ViewM.mk 2 2 ∉
        (add_labels_loop scanNone [⟨0, 1⟩, ⟨1, 1⟩, ⟨2, 2⟩] 0 none []).changedViews := by
  decide

/-- Claim C6 amended: a buffer whose storage is identical to one already
processed in the pass is indeed never processed again, but processing does
not continue past it — the duplicate ends the pass.  Precisely: the processed
views always form a prefix of the view list with pairwise-distinct buffers
none of which was pre-listed as changed, and whenever a pass ends with the
cursor exhausted without having consumed the whole list, the first
unprocessed view duplicates an already-processed buffer. -/
theorem c6_duplicate_buffer_halts (scan : ViewM → Nat → Option Nat → Nat × Option Nat) :
    ∀ (views : List ViewM) (li : Nat) (ns : Option Nat) (bufs : List Nat),
      (∀ b ∈ (add_labels_loop scan views li ns bufs).changedViews.map ViewM.bufferId,
          b ∉ bufs) ∧
        ((add_labels_loop scan views li ns bufs).changedViews.map ViewM.bufferId).Nodup ∧
        (∃ rest, views = (add_labels_loop scan views li ns bufs).changedViews ++ rest) ∧
        ((add_labels_loop scan views li ns bufs).nextSearch = none →
          (add_labels_loop scan views li ns bufs).changedViews = views ∨
            ∃ v rest,
              views = (add_labels_loop scan views li ns bufs).changedViews ++ v :: rest ∧
                v.bufferId ∈
                  bufs ++ (add_labels_loop scan views li ns bufs).changedViews.map
                    ViewM.bufferId) := by
  intro views
  induction views with
  | nil =>
    intro li ns bufs
    simp only [add_labels_loop]
    refine ⟨by simp, by simp, ⟨[], by simp⟩, fun _ => by simp⟩
  | cons v rest ih =>
    intro li ns bufs
    by_cases hdup : v.bufferId ∈ bufs
    · simp only [add_labels_loop, if_pos hdup]
      refine ⟨by simp, by simp, ⟨v :: rest, by simp⟩, fun _ => Or.inr ⟨v, rest, by simp, ?_⟩⟩
      simp only [List.map_nil, List.append_nil]
      exact hdup
    · rcases hscan : scan v li ns with ⟨li1, nso⟩
      cases nso with
      | some c =>
        simp only [add_labels_loop, if_neg hdup, hscan]
        refine ⟨?_, by simp, ⟨rest, by simp⟩, ?_⟩
        · intro b hb
          simp only [List.map_cons, List.map_nil, List.mem_singleton] at hb
          rw [hb]
          exact hdup
        · intro hns
          simp at hns
      | none =>
        obtain ⟨cv, bps, li2, ns2, hrec⟩ :
            ∃ a b c d,
              add_labels_loop scan rest li1 none (bufs ++ [v.bufferId]) = ⟨a, b, c, d⟩ :=
          ⟨_, _, _, _, rfl⟩
        have hred : add_labels_loop scan (v :: rest) li ns bufs =
            ⟨v :: cv, li1 :: bps, li2, ns2⟩ := by
          simp only [add_labels_loop, if_neg hdup, hscan, hrec]
        obtain ⟨ih1, ih2, ⟨rest2, ih3⟩, ih4⟩ := ih li1 none (bufs ++ [v.bufferId])
        rw [hrec] at ih1 ih2 ih3 ih4
        dsimp only at ih1 ih2 ih3 ih4
        simp only [hred]
        refine ⟨?_, ?_, ⟨rest2, by simp [ih3]⟩, ?_⟩
        · intro b hb
          simp only [List.map_cons, List.mem_cons] at hb
          rcases hb with rfl | hb
          · exact hdup
          · have := ih1 b hb
            simp only [List.mem_append] at this
            intro hmem
            exact this (Or.inl hmem)
        · simp only [List.map_cons, List.nodup_cons]
          refine ⟨?_, ih2⟩
          intro hmem
          have := ih1 _ hmem
          simp at this
        · intro hns
          rcases ih4 hns with heq | ⟨v', rest', heq, hmem⟩
          · left
            rw [heq]
          · right
            refine ⟨v', rest', by simp [heq], ?_⟩
            simp only [List.mem_append, List.mem_cons, List.map_cons] at hmem ⊢
            tauto

/-- Witness for the amended C6 at a concrete pass. -/
theorem c6_duplicate_buffer_halts_witness :
    (∀ b ∈ (add_labels_loop scanNone [⟨0, 1⟩, ⟨1, 1⟩, ⟨2, 2⟩] 0 none
          []).changedViews.map ViewM.bufferId, b ∉ ([] : List Nat)) ∧
      ((add_labels_loop scanNone [⟨0, 1⟩, ⟨1, 1⟩, ⟨2, 2⟩] 0 none
          []).changedViews.map ViewM.bufferId).Nodup ∧
      (∃ rest, [ViewM.mk 0 1, ViewM.mk 1 1, ViewM.mk 2 2] =
        (add_labels_loop scanNone [⟨0, 1⟩, ⟨1, 1⟩, ⟨2, 2⟩] 0 none
          []).changedViews ++ rest) ∧
      ((add_labels_loop scanNone [⟨0, 1⟩, ⟨1, 1⟩, ⟨2, 2⟩] 0 none []).nextSearch = none →
        (add_labels_loop scanNone [⟨0, 1⟩, ⟨1, 1⟩, ⟨2, 2⟩] 0 none []).changedViews =
            [ViewM.mk 0 1, ViewM.mk 1 1, ViewM.mk 2 2] ∨
          ∃ v rest, [ViewM.mk 0 1, ViewM.mk 1 1, ViewM.mk 2 2] =
              (add_labels_loop scanNone [⟨0, 1⟩, ⟨1, 1⟩, ⟨2, 2⟩] 0 none
                []).changedViews ++ v :: rest ∧
              v.bufferId ∈ ([] : List Nat) ++
                (add_labels_loop scanNone [⟨0, 1⟩, ⟨1, 1⟩, ⟨2, 2⟩] 0 none
                  []).changedViews.map ViewM.bufferId) :=
  c6_duplicate_buffer_halts scanNone [⟨0, 1⟩, ⟨1, 1⟩, ⟨2, 2⟩] 0 none []

/-- `str.find` for a single-character needle: the first index of the
character if present, else -1. -/
theorem str_find_aux_single (c : Nat) :
    ∀ (l : List Nat) (i : Nat),
      str_find_aux l [c] i =
        if c ∈ l then ((i + l.findIdx (fun y => decide (y = c))) : Int) else -1 := by
  intro l
  induction l with
  | nil => intro i; simp [str_find_aux]
  | cons a t ih =>
    intro i
    by_cases h : a = c
    · subst h
      have hpre : ([a].isPrefixOf (a :: t)) = true := by simp [List.isPrefixOf]
      simp [str_find_aux, hpre, List.findIdx_cons]
    · have hpre : ([c].isPrefixOf (a :: t)) = false := by
        simp [List.isPrefixOf]
        omega
      rw [str_find_aux, if_neg (by simp [hpre])]
      rw [ih (i + 1)]
      have hc : (decide (a = c)) = false := by simp; omega
      by_cases hm : c ∈ t
      · rw [if_pos hm, if_pos (by simp [hm])]
        simp only [List.findIdx_cons, hc, cond_false]
        push_cast
        ring
      · rw [if_neg hm, if_neg (by simp [hm]; omega)]

/-- Single-character `str.find` as membership plus `findIdx`. -/
theorem str_find_single (labels : List Nat) (c : Nat) :
    str_find labels [c] =
      if c ∈ labels then ((labels.findIdx (fun y => decide (y = c))) : Int) else -1 := by
  rw [str_find, str_find_aux_single]
  split <;> simp

/-- Claim C7: submitting the prompt performs the jump iff the typed target is
nonempty, occurs in the label alphabet, and its alphabet index is strictly
below the number of matches found so far; otherwise submitting is a no-op
cancel — artifacts removed, original selection and syntax restored, cursor
not moved, cursor state and reentrancy flag cleared. -/
theorem c7_submit_valid_target (st : SessionState) (origSel origSyntaxIds : List Nat)
    (labels target : List Nat) (lastIndex : Nat) (hints : List Nat)
    (htarget : target = [] ∨ ∃ c, target = [c]) :
    ((submit st origSel origSyntaxIds labels target lastIndex hints).2.isSome ↔
        ∃ c, target = [c] ∧ c ∈ labels ∧
          labels.findIdx (fun y => decide (y = c)) < lastIndex) ∧
      ((submit st origSel origSyntaxIds labels target lastIndex hints).2 = none →
        (submit st origSel origSyntaxIds labels target lastIndex hints).1 =
          ⟨origSel, origSyntaxIds, false, none, false⟩) := by
  by_cases hv : valid_target labels target lastIndex = true
  · have hsub : (submit st origSel origSyntaxIds labels target lastIndex hints).2 =
        some (hints.getD (str_find labels target).toNat 0) := by
      simp only [submit, hv, if_true]
    constructor
    · rw [hsub]
      simp only [Option.isSome_some, true_iff]
      simp only [valid_target, Bool.and_eq_true, decide_eq_true_eq] at hv
      obtain ⟨⟨hne, hge⟩, hlt⟩ := hv
      rcases htarget with rfl | ⟨c, rfl⟩
      · exact absurd rfl hne
      · have hm : c ∈ labels := by
          rw [str_find_single] at hge
          by_cases hm : c ∈ labels
          · exact hm
          · rw [if_neg hm] at hge
            omega
        refine ⟨c, rfl, hm, ?_⟩
        rw [str_find_single, if_pos hm] at hlt
        exact_mod_cast hlt
    · rw [hsub]
      intro h
      cases h
  · have hv' : valid_target labels target lastIndex = false := by
      simpa using hv
    have hsub : submit st origSel origSyntaxIds labels target lastIndex hints =
        (⟨origSel, origSyntaxIds, false, none, false⟩, none) := by
      simp only [submit, hv', Bool.false_eq_true, if_false]
    constructor
    · rw [hsub]
      simp only [Option.isSome_none, Bool.false_eq_true, false_iff]
      rintro ⟨c, rfl, hmem, hidx⟩
      have hvt : valid_target labels [c] lastIndex = true := by
        simp only [valid_target, str_find_single, if_pos hmem, Bool.and_eq_true,
          decide_eq_true_eq]
        refine ⟨⟨by simp, by exact_mod_cast Nat.zero_le _⟩, by exact_mod_cast hidx⟩
      rw [hvt] at hv'
      cases hv'
    · intro _
      rw [hsub]

/-- Witness for C7: labels "ab", target "b", two matches. -/
theorem c7_submit_valid_target_witness :
    (([98] : List Nat) = [] ∨ ∃ c, ([98] : List Nat) = [c]) ∧
      (((submit ⟨[], [], true, some 4, true⟩ [7] [1] [97, 98] [98] 2 [0, 4]).2.isSome ↔
          ∃ c, ([98] : List Nat) = [c] ∧ c ∈ [97, 98] ∧
            [97, 98].findIdx (fun y => decide (y = c)) < 2) ∧
        ((submit ⟨[], [], true, some 4, true⟩ [7] [1] [97, 98] [98] 2 [0, 4]).2 = none →
          (submit ⟨[], [], true, some 4, true⟩ [7] [1] [97, 98] [98] 2 [0, 4]).1 =
            ⟨[7], [1], false, none, false⟩)) :=
  ⟨Or.inr ⟨98, rfl⟩,
    c7_submit_valid_target ⟨[], [], true, some 4, true⟩ [7] [1] [97, 98] [98] 2 [0, 4]
      (Or.inr ⟨98, rfl⟩)⟩

/-- Claim C9: the module-level flag `ace_jump_active` is set when a session's
`run` starts and cleared by `submit`, and `is_enabled` (shared by every start
command) returns its negation, so a start command is disabled exactly while a
session is active. -/
theorem c9_reentrancy_guard (st : SessionState) :
    acejumpIsEnabled (acejumpRun st) = false ∧
      (∀ origSel origSyntaxIds labels target lastIndex hints,
        acejumpIsEnabled
          (submit (acejumpRun st) origSel origSyntaxIds labels target lastIndex
            hints).1 = true) ∧
      (∀ s : SessionState, s.ace_jump_active = true → acejumpIsEnabled s = false) := by
  refine ⟨rfl, ?_, ?_⟩
  · intro origSel origSyntaxIds labels target lastIndex hints
    simp only [submit, acejumpIsEnabled, acejumpRun]
    split <;> rfl
  · intro s hs
    simp [acejumpIsEnabled, hs]

/-- Witness for C9 at a concrete state. -/
theorem c9_reentrancy_guard_witness :
    acejumpIsEnabled (acejumpRun ⟨[], [], false, none, false⟩) = false ∧
      acejumpIsEnabled
        (submit (acejumpRun ⟨[], [], false, none, false⟩) [] [] [97] [] 0 []).1 = true ∧
      acejumpIsEnabled ⟨[], [], false, none, true⟩ = false :=
  ⟨(c9_reentrancy_guard ⟨[], [], false, none, false⟩).1,
    (c9_reentrancy_guard ⟨[], [], false, none, false⟩).2.1 [] [] [97] [] 0 [],
    (c9_reentrancy_guard ⟨[], [], false, none, false⟩).2.2 ⟨[], [], false, none, true⟩ rfl⟩

/-- `List.set` away from a position leaves `getD` unchanged. -/
theorem getD_set_ne (l : List Nat) (i j a : Nat) (h : i ≠ j) :
    (l.set i a).getD j 0 = l.getD j 0 := by
  simp [List.getD_eq_getElem?_getD, List.getElem?_set_ne h]

/-- `List.set` at an in-bounds position stores the value. -/
theorem getD_set_self (l : List Nat) (i a : Nat) (h : i < l.length) :
    (l.set i a).getD i 0 = a := by
  simp [List.getD_eq_getElem?_getD, List.getElem?_set_self, h]

/-- Behaviour of the destructive annotation fold: length is preserved,
positions outside the regions keep their character, and the `i`-th region's
position receives its label (full-width when the character there was
Chinese), reading the character from the original text since region begins
are strictly increasing. -/
theorem annotateGo_spec (labels : List Nat) (lastIndex nRegions : Nat) :
    ∀ (regions : List (Nat × Nat)) (text : List Nat) (idx : Nat),
      (∀ r ∈ regions, r.1 < text.length) →
      (regions.map Prod.fst).Pairwise (· < ·) →
      (annotateGo labels lastIndex nRegions text regions idx).length = text.length ∧
        (∀ p, p ∉ regions.map Prod.fst →
          (annotateGo labels lastIndex nRegions text regions idx).getD p 0 =
            text.getD p 0) ∧
        (∀ i, (hi : i < regions.length) →
          (annotateGo labels lastIndex nRegions text regions idx).getD
              (regions.get ⟨i, hi⟩).1 0 =
            (if isChinese (text.getD (regions.get ⟨i, hi⟩).1 0) then
              h2f_char (labels.getD (lastIndex + (idx + i) - nRegions) 0)
            else labels.getD (lastIndex + (idx + i) - nRegions) 0)) := by
  intro regions
  induction regions with
  | nil =>
    intro text idx _ _
    exact ⟨rfl, fun p _ => rfl, fun i hi => absurd hi (by simp)⟩
  | cons r rest ih =>
    intro text idx hb hp
    have hr : r.1 < text.length := hb r (by simp)
    rw [List.map_cons] at hp
    have hpc := List.pairwise_cons.mp hp
    have hhead : ∀ b ∈ rest.map Prod.fst, r.1 < b := hpc.1
    have hptail : (rest.map Prod.fst).Pairwise (· < ·) := hpc.2
    set lbl := (if isChinese (text.getD r.1 0) then
        h2f_char (labels.getD (lastIndex + idx - nRegions) 0)
      else labels.getD (lastIndex + idx - nRegions) 0) with hlbl
    have hred : annotateGo labels lastIndex nRegions text (r :: rest) idx =
        annotateGo labels lastIndex nRegions (text.set r.1 lbl) rest (idx + 1) := rfl
    obtain ⟨ih1, ih2, ih3⟩ := ih (text.set r.1 lbl) (idx + 1)
      (by
        intro x hx
        rw [List.length_set]
        exact hb x (by simp [hx]))
      hptail
    rw [hred]
    refine ⟨by rw [ih1, List.length_set], ?_, ?_⟩
    · intro p hpmem
      have hpr : p ≠ r.1 := by
        intro h
        exact hpmem (by simp [h])
      have hprest : p ∉ rest.map Prod.fst := fun h => hpmem (by simp [h])
      rw [ih2 p hprest, getD_set_ne _ _ _ _ (fun h => hpr h.symm)]
    · intro i hi
      cases i with
      | zero =>
        have hnr : r.1 ∉ rest.map Prod.fst := by
          intro h
          exact absurd (hhead _ h) (lt_irrefl _)
        have hget : ((r :: rest).get ⟨0, hi⟩) = r := rfl
        rw [hget, ih2 _ hnr, getD_set_self _ _ _ hr]
        simp [hlbl]
      | succ i' =>
        have hi' : i' < rest.length := by simpa using hi
        have hget : ((r :: rest).get ⟨i' + 1, hi⟩) = rest.get ⟨i', hi'⟩ := rfl
        have hmem : (rest.get ⟨i', hi'⟩) ∈ rest := rest.get_mem i' hi'
        have hne : r.1 ≠ (rest.get ⟨i', hi'⟩).1 :=
          ne_of_lt (hhead _ (List.mem_map_of_mem _ hmem))
        rw [hget, ih3 i' hi', getD_set_ne _ _ _ _ hne]
        have harith : idx + 1 + i' = idx + (i' + 1) := by omega
        rw [harith]

/-- Claim C8: in destructive (replace-char) hinting mode, annotate replaces
each matched single-character region with exactly one character — the
assigned label `labels[last_index + idx - len(regions)]` shifted to its
full-width presentation form (+0xFEE0, a shift the table defines for ASCII
0x21..0x7E) exactly when the matched character is a CJK ideograph
(U+4E00..U+9FD5), and the plain label symbol otherwise; the text length and
all unmatched positions are untouched. -/
theorem c8_replace_char_full_width (text : List Nat) (regions : List (Nat × Nat))
    (labels : List Nat) (lastIndex : Nat)
    (hb : ∀ r ∈ regions, r.1 < text.length)
    (hp : (regions.map Prod.fst).Pairwise (· < ·)) :
    (add_labels_replace text regions labels lastIndex).length = text.length ∧
      (∀ i, (hi : i < regions.length) →
        (add_labels_replace text regions labels lastIndex).getD
            (regions.get ⟨i, hi⟩).1 0 =
          (if isChinese (text.getD (regions.get ⟨i, hi⟩).1 0) then
            h2f_char (labels.getD (lastIndex + i - regions.length) 0)
          else labels.getD (lastIndex + i - regions.length) 0)) ∧
      (∀ p, p ∉ regions.map Prod.fst →
        (add_labels_replace text regions labels lastIndex).getD p 0 = text.getD p 0) := by
  obtain ⟨h1, h2, h3⟩ := annotateGo_spec labels lastIndex regions.length regions text 0 hb hp
  exact ⟨h1, fun i hi => by simpa using h3 i hi, h2⟩

/-- Witness for C8: text "一a你" with regions on the two CJK characters,
labels "xy", after a pass with `last_index = 2`. -/
theorem c8_replace_char_full_width_witness :
    (∀ r ∈ [((0 : Nat), (1 : Nat)), (2, 3)], r.1 < [0x4E00, 97, 0x4F60].length) ∧
      (([((0 : Nat), (1 : Nat)), (2, 3)].map Prod.fst).Pairwise (· < ·)) ∧
      ((add_labels_replace [0x4E00, 97, 0x4F60] [(0, 1), (2, 3)] [120, 121] 2).length =
          [0x4E00, 97, 0x4F60].length ∧
        (∀ i, (hi : i < [((0 : Nat), (1 : Nat)), (2, 3)].length) →
          (add_labels_replace [0x4E00, 97, 0x4F60] [(0, 1), (2, 3)] [120, 121] 2).getD
              ([((0 : Nat), (1 : Nat)), (2, 3)].get ⟨i, hi⟩).1 0 =
            (if isChinese ([0x4E00, 97, 0x4F60].getD
                ([((0 : Nat), (1 : Nat)), (2, 3)].get ⟨i, hi⟩).1 0) then
              h2f_char ([120, 121].getD (2 + i - [((0 : Nat), (1 : Nat)), (2, 3)].length) 0)
            else [120, 121].getD (2 + i - [((0 : Nat), (1 : Nat)), (2, 3)].length) 0)) ∧
        (∀ p, p ∉ [((0 : Nat), (1 : Nat)), (2, 3)].map Prod.fst →
          (add_labels_replace [0x4E00, 97, 0x4F60] [(0, 1), (2, 3)] [120, 121] 2).getD p 0 =
            [0x4E00, 97, 0x4F60].getD p 0)) :=
  ⟨by decide, by decide,
    c8_replace_char_full_width [0x4E00, 97, 0x4F60] [(0, 1), (2, 3)] [120, 121] 2
      (by decide) (by decide)⟩

/-- The accumulator loop shared by `get_pinyin`/`get_initials` produces
exactly the structurally described parts list: with a fresh flag it appends
the spec parts; with a cleared flag it first extends the last accumulated
part by the leading run of dictionary-absent characters. -/
theorem pinyinScanGo_spec (w : Nat → Option (List Nat)) :
    ∀ (n : Nat) (chars : List Nat), chars.length ≤ n →
      ∀ result : List (List Nat),
        (pinyinScanGo w chars result true = result ++ pinyinPartsSpec w chars) ∧
          (∀ last, pinyinScanGo w chars (result ++ [last]) false =
            result ++ ((last ++ chars.takeWhile (fun x => (w x).isNone)) ::
              pinyinPartsSpec w (chars.dropWhile (fun x => (w x).isNone)))) := by
  intro n
  induction n with
  | zero =>
    intro chars hlen result
    have hnil : chars = [] := by
      cases chars with
      | nil => rfl
      | cons c t => simp at hlen
    subst hnil
    refine ⟨by simp [pinyinScanGo, pinyinPartsSpec], ?_⟩
    intro last
    simp [pinyinScanGo, pinyinPartsSpec]
  | succ n ih =>
    intro chars hlen result
    cases chars with
    | nil =>
      refine ⟨by simp [pinyinScanGo, pinyinPartsSpec], ?_⟩
      intro last
      simp [pinyinScanGo, pinyinPartsSpec]
    | cons c rest =>
      have hrest : rest.length ≤ n := by
        simp only [List.length_cons] at hlen
        omega
      constructor
      · cases hw : w c with
        | some v =>
          simp only [pinyinScanGo, hw]
          rw [(ih rest hrest (result ++ [v])).1]
          simp only [pinyinPartsSpec, hw]
          simp
        | none =>
          simp only [pinyinScanGo, hw, if_pos rfl]
          rw [(ih rest hrest result).2 [c]]
          simp only [pinyinPartsSpec, hw]
          simp
      · intro last
        cases hw : w c with
        | some v =>
          simp only [pinyinScanGo, hw]
          rw [show (result ++ [last]) ++ [v] = (result ++ [last]) ++ [v] from rfl]
          rw [(ih rest hrest (result ++ [last] ++ [v])).1]
          have htw : (c :: rest).takeWhile (fun x => (w x).isNone) = [] := by
            simp [List.takeWhile_cons, hw]
          have hdw : (c :: rest).dropWhile (fun x => (w x).isNone) = c :: rest := by
            simp [List.dropWhile_cons, hw]
          rw [htw, hdw]
          simp only [pinyinPartsSpec, hw]
          simp
        | none =>
          simp only [pinyinScanGo, hw]
          rw [if_neg (by simp)]
          have hdrop : (result ++ [last]).dropLast = result := by
            simp
          have hglast : ((result ++ [last]).getLast?.getD []) = last := by
            simp
          rw [hdrop, hglast]
          have happ : result ++ [last ++ [c]] = result ++ [last ++ [c]] := rfl
          rw [(ih rest hrest result).2 (last ++ [c])]
          have htw : (c :: rest).takeWhile (fun x => (w x).isNone) =
              c :: rest.takeWhile (fun x => (w x).isNone) := by
            simp [List.takeWhile_cons, hw]
          have hdw : (c :: rest).dropWhile (fun x => (w x).isNone) =
              rest.dropWhile (fun x => (w x).isNone) := by
            simp [List.dropWhile_cons, hw]
          rw [htw, hdw]
          simp

/-- `get_pinyin`'s internal `result` list follows the structural spec. -/
theorem get_pinyin_parts_eq_spec (d : PinyinDict) (chars : List Nat) :
    get_pinyin_parts d chars =
      pinyinPartsSpec (fun c => (dictLookup d c).map pinyinWord) chars := by
  have := (pinyinScanGo_spec (fun c => (dictLookup d c).map pinyinWord)
    chars.length chars (le_refl _) []).1
  simpa [get_pinyin_parts] using this

/-- `get_initials`'s internal `result` list follows the structural spec. -/
theorem get_initials_parts_eq_spec (d : PinyinDict) (chars : List Nat) :
    get_initials_parts d chars =
      pinyinPartsSpec (fun c => (dictLookup d c).map initialsWord) chars := by
  have := (pinyinScanGo_spec (fun c => (dictLookup d c).map initialsWord)
    chars.length chars (le_refl _) []).1
  simpa [get_initials_parts] using this

/-- The parts list never outnumbers the input characters. -/
theorem pinyinPartsSpec_length_le (w : Nat → Option (List Nat)) :
    ∀ (n : Nat) (chars : List Nat), chars.length ≤ n →
      (pinyinPartsSpec w chars).length ≤ chars.length := by
  intro n
  induction n with
  | zero =>
    intro chars hlen
    cases chars with
    | nil => simp [pinyinPartsSpec]
    | cons c t => simp at hlen
  | succ n ih =>
    intro chars hlen
    cases chars with
    | nil => simp [pinyinPartsSpec]
    | cons c rest =>
      have hrest : rest.length ≤ n := by
        simp only [List.length_cons] at hlen
        omega
      cases hw : w c with
      | some v =>
        simp only [pinyinPartsSpec, hw, List.length_cons]
        have := ih rest hrest
        omega
      | none =>
        simp only [pinyinPartsSpec, hw, List.length_cons]
        have hsplit : (rest.takeWhile (fun x => (w x).isNone)).length +
            (rest.dropWhile (fun x => (w x).isNone)).length = rest.length := by
          have h := congrArg List.length
            (List.takeWhile_append_dropWhile (fun x => (w x).isNone) rest)
          rw [List.length_append] at h
          exact h
        have hdrop := ih (rest.dropWhile (fun x => (w x).isNone))
          (le_trans (by omega) hrest)
        omega

/-- Two adjacent dictionary-absent characters force strictly fewer parts. -/
theorem pinyinPartsSpec_length_lt (w : Nat → Option (List Nat)) :
    ∀ (n : Nat) (chars : List Nat), chars.length ≤ n →
      (∃ pre a b post, chars = pre ++ a :: b :: post ∧
        (w a).isNone ∧ (w b).isNone) →
      (pinyinPartsSpec w chars).length < chars.length := by
  intro n
  induction n with
  | zero =>
    intro chars hlen hpair
    obtain ⟨pre, a, b, post, heq, -, -⟩ := hpair
    subst heq
    simp at hlen
  | succ n ih =>
    intro chars hlen hpair
    obtain ⟨pre, a, b, post, heq, ha, hb⟩ := hpair
    subst heq
    cases pre with
    | nil =>
      simp only [List.nil_append]
      have hwa : w a = none := by
        cases hwa : w a
        · rfl
        · rw [hwa] at ha; simp at ha
      have hwb : w b = none := by
        cases hwb : w b
        · rfl
        · rw [hwb] at hb; simp at hb
      simp only [pinyinPartsSpec, hwa, List.length_cons]
      have htw : ((b :: post).takeWhile (fun x => (w x).isNone)) =
          b :: post.takeWhile (fun x => (w x).isNone) := by
        simp [List.takeWhile_cons, hwb]
      have hdw : ((b :: post).dropWhile (fun x => (w x).isNone)) =
          post.dropWhile (fun x => (w x).isNone) := by
        simp [List.dropWhile_cons, hwb]
      rw [hdw]
      have hsplit : (post.takeWhile (fun x => (w x).isNone)).length +
          (post.dropWhile (fun x => (w x).isNone)).length = post.length := by
        have h := congrArg List.length
          (List.takeWhile_append_dropWhile (fun x => (w x).isNone) post)
        rw [List.length_append] at h
        exact h
      have hdrop := pinyinPartsSpec_length_le w n
        (post.dropWhile (fun x => (w x).isNone))
        (by simp only [List.nil_append, List.length_cons] at hlen; omega)
      omega
    | cons p pre' =>
      simp only [List.cons_append, List.length_cons] at hlen ⊢
      have hlenr : (pre' ++ a :: b :: post).length ≤ n := by omega
      have hIH := ih (pre' ++ a :: b :: post) hlenr ⟨pre', a, b, post, rfl, ha, hb⟩
      cases hw : w p with
      | some v =>
        simp only [pinyinPartsSpec, hw, List.length_cons]
        omega
      | none =>
        simp only [pinyinPartsSpec, hw, List.length_cons]
        rcases hsplit_eq : (pre' ++ a :: b :: post).takeWhile (fun x => (w x).isNone) with
          _ | ⟨r, t⟩
        · have hdw : (pre' ++ a :: b :: post).dropWhile (fun x => (w x).isNone) =
              pre' ++ a :: b :: post := by
            conv_rhs =>
              rw [← List.takeWhile_append_dropWhile (fun x => (w x).isNone)
                (pre' ++ a :: b :: post)]
            rw [hsplit_eq]
            simp
          rw [hdw]
          omega
        · have hsplit : ((pre' ++ a :: b :: post).takeWhile
              (fun x => (w x).isNone)).length +
              ((pre' ++ a :: b :: post).dropWhile (fun x => (w x).isNone)).length =
              (pre' ++ a :: b :: post).length := by
            have h := congrArg List.length
              (List.takeWhile_append_dropWhile (fun x => (w x).isNone)
                (pre' ++ a :: b :: post))
            rw [List.length_append] at h
            exact h
          rw [hsplit_eq] at hsplit
          simp only [List.length_cons] at hsplit
          have hle := pinyinPartsSpec_length_le w n
            ((pre' ++ a :: b :: post).dropWhile (fun x => (w x).isNone)) (by omega)
          omega

/-- When no two dictionary-absent characters are adjacent, the parts list is
positionally aligned with the input: one part per character, the reading for
dictionary hits and the verbatim character otherwise. -/
theorem pinyinPartsSpec_align (w : Nat → Option (List Nat)) :
    ∀ (n : Nat) (chars : List Nat), chars.length ≤ n →
      (∀ pre a b post, chars = pre ++ a :: b :: post →
        (w a).isSome ∨ (w b).isSome) →
      (pinyinPartsSpec w chars).length = chars.length ∧
        ∀ i, i < chars.length →
          (pinyinPartsSpec w chars).getD i [] =
            (match w (chars.getD i 0) with
             | some v => v
             | none => [chars.getD i 0]) := by
  intro n
  induction n with
  | zero =>
    intro chars hlen _
    have hnil : chars = [] := by
      cases chars with
      | nil => rfl
      | cons c t => simp at hlen
    subst hnil
    exact ⟨by simp [pinyinPartsSpec], fun i hi => by simp at hi⟩
  | succ n ih =>
    intro chars hlen hadj
    cases chars with
    | nil => exact ⟨by simp [pinyinPartsSpec], fun i hi => by simp at hi⟩
    | cons c rest =>
      have hrest : rest.length ≤ n := by
        simp only [List.length_cons] at hlen
        omega
      have hadjrest : ∀ pre a b post, rest = pre ++ a :: b :: post →
          (w a).isSome ∨ (w b).isSome := by
        intro pre a b post heq
        exact hadj (c :: pre) a b post (by rw [heq]; rfl)
      cases hw : w c with
      | some v =>
        obtain ⟨ihl, ihp⟩ := ih rest hrest hadjrest
        simp only [pinyinPartsSpec, hw]
        refine ⟨by simp [ihl], ?_⟩
        intro i hi
        cases i with
        | zero => simp [hw]
        | succ i' =>
          have hi' : i' < rest.length := by
            simp only [List.length_cons] at hi
            omega
          simpa using ihp i' hi'
      | none =>
        have htw : rest.takeWhile (fun x => (w x).isNone) = [] := by
          cases rest with
          | nil => rfl
          | cons r rest' =>
            have := hadj [] c r rest' rfl
            rw [hw] at this
            simp only [Option.isSome_none, Bool.false_eq_true, false_or] at this
            rw [List.takeWhile_cons]
            simp [Option.isNone_iff_eq_none] at this ⊢
            intro h
            rw [h] at this
            simp at this
        have hdw : rest.dropWhile (fun x => (w x).isNone) = rest := by
          cases rest with
          | nil => rfl
          | cons r rest' =>
            have := hadj [] c r rest' rfl
            rw [hw] at this
            simp only [Option.isSome_none, Bool.false_eq_true, false_or] at this
            rw [List.dropWhile_cons]
            simp [Option.isNone_iff_eq_none] at this ⊢
            intro h
            rw [h] at this
            simp at this
        obtain ⟨ihl, ihp⟩ := ih rest hrest hadjrest
        simp only [pinyinPartsSpec, hw, htw, hdw]
        refine ⟨by simp [ihl], ?_⟩
        intro i hi
        cases i with
        | zero => simp [hw]
        | succ i' =>
          have hi' : i' < rest.length := by
            simp only [List.length_cons] at hi
            omega
          simpa using ihp i' hi'

/-- Claim C10: `get_pinyin` and `get_initials` join, with the splitter, a
parts list that has one part per character found in the dictionary and
collapses each maximal run of consecutive dictionary-absent characters into
one verbatim part; hence the parts never outnumber the characters, two
adjacent absent characters make them strictly fewer, and positional
alignment between parts and characters holds when no two absent characters
are adjacent. -/
theorem c10_pinyin_collapses_absent_runs (d : PinyinDict) (chars splitter : List Nat) :
    (get_pinyin d chars splitter =
        splitter.intercalate
          (pinyinPartsSpec (fun c => (dictLookup d c).map pinyinWord) chars) ∧
      get_initials d chars splitter =
        splitter.intercalate
          (pinyinPartsSpec (fun c => (dictLookup d c).map initialsWord) chars)) ∧
      ((get_pinyin_parts d chars).length ≤ chars.length ∧
        (get_initials_parts d chars).length ≤ chars.length) ∧
      ((∃ pre a b post, chars = pre ++ a :: b :: post ∧
          (dictLookup d a).isNone ∧ (dictLookup d b).isNone) →
        (get_pinyin_parts d chars).length < chars.length ∧
          (get_initials_parts d chars).length < chars.length) ∧
      ((∀ pre a b post, chars = pre ++ a :: b :: post →
          (dictLookup d a).isSome ∨ (dictLookup d b).isSome) →
        (get_pinyin_parts d chars).length = chars.length ∧
          ∀ i, i < chars.length →
            (get_pinyin_parts d chars).getD i [] =
              (match dictLookup d (chars.getD i 0) with
               | some v => pinyinWord v
               | none => [chars.getD i 0])) := by
  refine ⟨⟨?_, ?_⟩, ⟨?_, ?_⟩, ?_, ?_⟩
  · rw [get_pinyin, get_pinyin_parts_eq_spec]
  · rw [get_initials, get_initials_parts_eq_spec]
  · rw [get_pinyin_parts_eq_spec]
    exact pinyinPartsSpec_length_le _ chars.length chars (le_refl _)
  · rw [get_initials_parts_eq_spec]
    exact pinyinPartsSpec_length_le _ chars.length chars (le_refl _)
  · rintro ⟨pre, a, b, post, heq, ha, hb⟩
    constructor
    · rw [get_pinyin_parts_eq_spec]
      exact pinyinPartsSpec_length_lt _ chars.length chars (le_refl _)
        ⟨pre, a, b, post, heq, by simpa using ha, by simpa using hb⟩
    · rw [get_initials_parts_eq_spec]
      exact pinyinPartsSpec_length_lt _ chars.length chars (le_refl _)
        ⟨pre, a, b, post, heq, by simpa using ha, by simpa using hb⟩
  · intro hadj
    have hadj' : ∀ pre a b post, chars = pre ++ a :: b :: post →
        ((dictLookup d a).map pinyinWord).isSome ∨
          ((dictLookup d b).map pinyinWord).isSome := by
      intro pre a b post heq
      rcases hadj pre a b post heq with h | h
      · left; simpa using h
      · right; simpa using h
    obtain ⟨hl, hp⟩ := pinyinPartsSpec_align _ chars.length chars (le_refl _) hadj'
    refine ⟨by rw [get_pinyin_parts_eq_spec]; exact hl, ?_⟩
    intro i hi
    rw [get_pinyin_parts_eq_spec, hp i hi]
    cases hdl : dictLookup d (chars.getD i 0) <;> simp [hdl]

/-- Witness for C10: dictionary with only 你 → "NI3"; input 一你 (一 absent). -/
theorem c10_pinyin_collapses_absent_runs_witness :
    ((get_pinyin [(0x4F60, [78, 73, 51])] [0x4E00, 0x4F60] [45] =
        [45].intercalate
          (pinyinPartsSpec
            (fun c => (dictLookup [(0x4F60, [78, 73, 51])] c).map pinyinWord)
            [0x4E00, 0x4F60]) ∧
      get_initials [(0x4F60, [78, 73, 51])] [0x4E00, 0x4F60] [45] =
        [45].intercalate
          (pinyinPartsSpec
            (fun c => (dictLookup [(0x4F60, [78, 73, 51])] c).map initialsWord)
            [0x4E00, 0x4F60])) ∧
      (get_pinyin_parts [(0x4F60, [78, 73, 51])] [0x4E00, 0x4F60] =
        [[0x4E00], [110, 105]] ∧
      get_pinyin_parts [(0x4F60, [78, 73, 51])] [0x4E00, 0x4E01] = [[0x4E00, 0x4E01]])) :=
  ⟨(c10_pinyin_collapses_absent_runs [(0x4F60, [78, 73, 51])] [0x4E00, 0x4F60] [45]).1,
    by decide, by decide⟩

/-- With sufficient fuel, the runs of the worker are nonempty. -/
theorem chineseRunsGo_ne_nil :
    ∀ (n : Nat) (l : List Nat), ∀ run ∈ chineseRunsGo n l, run ≠ [] := by
  intro n
  induction n with
  | zero => intro l run hrun; simp [chineseRunsGo] at hrun
  | succ n ih =>
    intro l run hrun
    cases l with
    | nil => simp [chineseRunsGo] at hrun
    | cons c rest =>
      by_cases hc : isChinese c
      · rw [chineseRunsGo, if_pos hc] at hrun
        rcases List.mem_cons.mp hrun with rfl | hrun
        · simp
        · exact ih (rest.dropWhile isChinese) run hrun
      · rw [chineseRunsGo, if_neg hc] at hrun
        exact ih rest run hrun

/-- The Chinese runs of a text are nonempty.  (The first argument is kept
for interface stability; only `l.length ≤ n` instances are used.) -/
theorem chineseRuns_ne_nil :
    ∀ (n : Nat) (l : List Nat), l.length ≤ n → ∀ run ∈ chineseRuns l, run ≠ [] :=
  fun _ l _ => chineseRunsGo_ne_nil l.length l

/-- With fuel at least the text length, the worker's concatenated runs are
exactly the Chinese characters of the text, in order. -/
theorem chineseRunsGo_flatten :
    ∀ (n : Nat) (l : List Nat), l.length ≤ n →
      (chineseRunsGo n l).flatten = l.filter isChinese := by
  intro n
  induction n with
  | zero =>
    intro l hlen
    have : l = [] := by
      cases l with
      | nil => rfl
      | cons c t => simp at hlen
    subst this
    simp [chineseRunsGo]
  | succ n ih =>
    intro l hlen
    cases l with
    | nil => simp [chineseRunsGo]
    | cons c rest =>
      have hrest : rest.length ≤ n := by
        simp only [List.length_cons] at hlen
        omega
      by_cases hc : isChinese c
      · rw [chineseRunsGo, if_pos hc]
        have hd : (rest.dropWhile isChinese).length ≤ n :=
          le_trans (List.dropWhile_sublist _).length_le hrest
        rw [List.flatten_cons, ih (rest.dropWhile isChinese) hd]
        rw [List.filter_cons_of_pos hc]
        have hsplit : rest.filter isChinese =
            rest.takeWhile isChinese ++ (rest.dropWhile isChinese).filter isChinese := by
          conv_lhs => rw [← List.takeWhile_append_dropWhile isChinese rest]
          rw [List.filter_append]
          congr 1
          exact List.filter_eq_self.mpr (fun x hx => List.mem_takeWhile_imp hx)
        rw [hsplit]
        simp
      · rw [chineseRunsGo, if_neg hc, ih rest hrest,
          List.filter_cons_of_neg (by simpa using hc)]

/-- The concatenation of the Chinese runs is exactly the Chinese characters
of the text, in order. -/
theorem chineseRuns_flatten :
    ∀ (n : Nat) (l : List Nat), l.length ≤ n →
      (chineseRuns l).flatten = l.filter isChinese :=
  fun _ l _ => chineseRunsGo_flatten l.length l (le_refl _)

/-- Membership in `matchPositions`. -/
theorem matchPositions_mem (p : Nat → Bool) :
    ∀ (count ns x : Nat),
      x ∈ matchPositions p ns count ↔ ns ≤ x ∧ x < ns + count ∧ p x = true := by
  intro count
  induction count with
  | zero =>
    intro ns x
    simp [matchPositions]
    omega
  | succ count ih =>
    intro ns x
    rw [matchPositions]
    by_cases hp : p ns
    · rw [if_pos hp, List.mem_cons, ih (ns + 1) x]
      constructor
      · rintro (rfl | ⟨h1, h2, h3⟩)
        · exact ⟨le_refl _, by omega, hp⟩
        · exact ⟨by omega, by omega, h3⟩
      · rintro ⟨h1, h2, h3⟩
        rcases Nat.eq_or_lt_of_le h1 with rfl | hlt
        · exact Or.inl rfl
        · exact Or.inr ⟨by omega, by omega, h3⟩
    · rw [if_neg hp, ih (ns + 1) x]
      constructor
      · rintro ⟨h1, h2, h3⟩
        exact ⟨by omega, by omega, h3⟩
      · rintro ⟨h1, h2, h3⟩
        rcases Nat.eq_or_lt_of_le h1 with rfl | hlt
        · exact absurd h3 (by simpa using hp)
        · exact ⟨by omega, by omega, h3⟩

/-- A window with no satisfying positions scans to nothing. -/
theorem matchPositions_nil (p : Nat → Bool) :
    ∀ (count ns : Nat), (∀ j, ns ≤ j → j < ns + count → p j = false) →
      matchPositions p ns count = [] := by
  intro count
  induction count with
  | zero => intro ns _; rfl
  | succ count ih =>
    intro ns h
    rw [matchPositions, if_neg (by simp [h ns (le_refl _) (by omega)])]
    exact ih (ns + 1) (fun j h1 h2 => h j (by omega) (by omega))

/-- Peeling the unsatisfied prefix off a scan window. -/
theorem matchPositions_peel (p : Nat → Bool) :
    ∀ (k ns i0 bound : Nat), ns ≤ i0 → i0 - ns ≤ k → i0 ≤ bound →
      (∀ j, ns ≤ j → j < i0 → p j = false) →
      matchPositions p ns (bound - ns) = matchPositions p i0 (bound - i0) := by
  intro k
  induction k with
  | zero =>
    intro ns i0 bound h1 h2 _ _
    have : ns = i0 := by omega
    rw [this]
  | succ k ih =>
    intro ns i0 bound h1 h2 h3 h4
    rcases Nat.eq_or_lt_of_le h1 with rfl | hlt
    · rfl
    · have hb : ns < bound := by omega
      obtain ⟨c, hc⟩ : ∃ c, bound - ns = c + 1 := ⟨bound - ns - 1, by omega⟩
      rw [hc, matchPositions, if_neg (by simp [h4 ns (le_refl _) hlt])]
      have : c = bound - (ns + 1) := by omega
      rw [this]
      exact ih (ns + 1) i0 bound (by omega) (by omega) h3
        (fun j hj1 hj2 => h4 j (by omega) hj2)

/-- Completeness of the budgeted scan for the concrete char-alternation
searcher: with enough budget, the produced match begins are exactly the
positions of the region whose character is the seed or belongs to the class. -/
theorem seedClass_findLoop_positions (text : List Nat) (seed : Nat) (cls : List Nat)
    (re : Nat) (hre : re ≤ text.length) :
    ∀ (fuel ns li maxL : Nat), re - ns ≤ fuel → li + (re - ns) ≤ maxL →
      (findLoop (seedClassSearcher text seed cls) re maxL fuel ns li).1.map Prod.fst =
        matchPositions (fun i => decide (text.getD i 0 = seed ∨ text.getD i 0 ∈ cls))
          ns (re - ns) := by
  intro fuel
  induction fuel with
  | zero =>
    intro ns li maxL h1 h2
    have : re - ns = 0 := by omega
    rw [this]
    simp [findLoop, matchPositions]
  | succ fuel ih =>
    intro ns li maxL h1 h2
    by_cases hns : ns < re
    · have hguard : ns < re ∧ li < maxL := ⟨hns, by omega⟩
      cases hnext : (seedClassSearcher text seed cls).next ns with
      | none =>
        have hms : (findLoop (seedClassSearcher text seed cls) re maxL
            (fuel + 1) ns li).1 = [] := by
          simp only [findLoop, if_pos hguard, hnext]
        rw [hms]
        have hnone : firstIdxFrom
            (fun i => decide (text.getD i 0 = seed ∨ text.getD i 0 ∈ cls))
            ns text.length = none := by
          simp only [seedClassSearcher] at hnext
          exact Option.map_eq_none'.mp hnext
        have hfalse := firstIdxFromFuel_none _ _ _ hnone
        symm
        apply matchPositions_nil
        intro j hj1 hj2
        exact hfalse j hj1 (by omega)
      | some be =>
        obtain ⟨b, e⟩ := be
        have hsome : ∃ i0, firstIdxFrom
            (fun i => decide (text.getD i 0 = seed ∨ text.getD i 0 ∈ cls))
            ns text.length = some i0 ∧ b = i0 ∧ e = i0 + 1 := by
          simp only [seedClassSearcher] at hnext
          rw [Option.map_eq_some'] at hnext
          obtain ⟨i0, hf, heq⟩ := hnext
          simp only [Prod.mk.injEq] at heq
          exact ⟨i0, hf, heq.1.symm, heq.2.symm⟩
        obtain ⟨i0, hf, rfl, rfl⟩ := hsome
        obtain ⟨hi1, hi2, hi3, hi4⟩ := firstIdxFromFuel_some _ _ _ _ hf
        by_cases hout : re < b + 1
        · have hms : (findLoop (seedClassSearcher text seed cls) re maxL
              (fuel + 1) ns li).1 = [] := by
            simp only [findLoop, if_pos hguard, hnext, if_pos hout]
          rw [hms]
          symm
          apply matchPositions_nil
          intro j hj1 hj2
          exact hi4 j hj1 (by omega)
        · have hms : (findLoop (seedClassSearcher text seed cls) re maxL
              (fuel + 1) ns li).1 =
              (b, b + 1) ::
                (findLoop (seedClassSearcher text seed cls) re maxL fuel (b + 1)
                  (li + 1)).1 := by
            simp only [findLoop, if_pos hguard, hnext, if_neg hout]
          rw [hms, List.map_cons]
          have hrec := ih (b + 1) (li + 1) maxL (by omega) (by omega)
          rw [hrec]
          rw [matchPositions_peel
            (fun i => decide (text.getD i 0 = seed ∨ text.getD i 0 ∈ cls))
            (b - ns) ns b re hi1 (le_refl _) (by omega) hi4]
          obtain ⟨c, hc⟩ : ∃ c, re - b = c + 1 := ⟨re - b - 1, by omega⟩
          rw [hc, matchPositions, if_pos hi3]
          have : c = re - (b + 1) := by omega
          rw [this]
    · have : re - ns = 0 := by omega
      rw [this]
      have hms : (findLoop (seedClassSearcher text seed cls) re maxL
          (fuel + 1) ns li).1 = [] := by
        simp only [findLoop]
        rw [if_neg (by omega)]
      rw [hms]
      rfl

/-- A successful dictionary lookup returns the value of some entry. -/
theorem dictLookup_mem (d : PinyinDict) (c : Nat) (v : List Nat)
    (h : dictLookup d c = some v) : ∃ k, (k, v) ∈ d := by
  rw [dictLookup, Option.map_eq_some'] at h
  obtain ⟨kv, hf, rfl⟩ := h
  exact ⟨kv.1, List.mem_of_find?_eq_some hf⟩

/-- When every character is a dictionary hit the parts list is the pointwise
word list. -/
theorem pinyinPartsSpec_all_present (w : Nat → Option (List Nat)) :
    ∀ l : List Nat, (∀ c ∈ l, (w c).isSome) →
      pinyinPartsSpec w l = l.map (fun c => (w c).getD []) := by
  intro l
  induction l with
  | nil => intro _; simp [pinyinPartsSpec]
  | cons c rest ih =>
    intro hall
    obtain ⟨v, hv⟩ := Option.isSome_iff_exists.mp (hall c (by simp))
    simp only [pinyinPartsSpec, hv, List.map_cons]
    rw [ih (fun x hx => hall x (by simp [hx]))]
    simp [hv]

/-- With every character of a nonempty run in the dictionary and splitter-free
reading words, `split("-")` undoes the `"-".join` of `get_pinyin`. -/
theorem pinyin_split_roundtrip (d : PinyinDict) (run : List Nat)
    (hrun : run ≠ []) (hall : ∀ c ∈ run, (dictLookup d c).isSome)
    (hwf : ∀ kv ∈ d, (45 : Nat) ∉ pinyinWord kv.2) :
    (get_pinyin d run [45]).splitOn 45 = get_pinyin_parts d run := by
  rw [get_pinyin]
  have hparts : get_pinyin_parts d run =
      run.map (fun c => ((dictLookup d c).map pinyinWord).getD []) := by
    rw [get_pinyin_parts_eq_spec]
    exact pinyinPartsSpec_all_present _ run (by intro c hc; simpa using hall c hc)
  apply List.splitOn_intercalate
  · intro l hl
    rw [hparts, List.mem_map] at hl
    obtain ⟨c, hc, rfl⟩ := hl
    obtain ⟨v, hv⟩ := Option.isSome_iff_exists.mp (hall c hc)
    obtain ⟨k, hk⟩ := dictLookup_mem d c v hv
    rw [hv]
    simpa using hwf (k, v) hk
  · rw [hparts]
    simp [hrun]

/-- Characterization of the alternation class when every Chinese character of
the content is in the dictionary and reading words are splitter-free: the
class holds exactly the Chinese characters of the content whose reading
initial is the seed. -/
theorem matchedChineseChars_mem (d : PinyinDict) (seed : Nat) (content : List Nat)
    (hdict : ∀ c ∈ content, isChinese c = true → (dictLookup d c).isSome)
    (hwf : ∀ kv ∈ d, (45 : Nat) ∉ pinyinWord kv.2) :
    ∀ x, x ∈ matchedChineseChars d seed content ↔
      (x ∈ content ∧ isChinese x = true ∧ readingInitial d x = some seed) := by
  intro x
  rw [matchedChineseChars, List.mem_flatMap]
  constructor
  · rintro ⟨run, hrun, hx⟩
    have hsub : ∀ c ∈ run, c ∈ content ∧ isChinese c = true := by
      intro c hc
      have hflat : c ∈ (chineseRuns content).flatten :=
        List.mem_flatten.mpr ⟨run, hrun, hc⟩
      rw [chineseRuns_flatten content.length content (le_refl _)] at hflat
      exact ⟨(List.mem_filter.mp hflat).1, (List.mem_filter.mp hflat).2⟩
    have hne : run ≠ [] :=
      chineseRuns_ne_nil content.length content (le_refl _) run hrun
    have hallrun : ∀ c ∈ run, (dictLookup d c).isSome := fun c hc =>
      hdict c (hsub c hc).1 (hsub c hc).2
    rw [pinyin_split_roundtrip d run hne hallrun hwf] at hx
    rw [get_pinyin_parts_eq_spec,
      pinyinPartsSpec_all_present _ run (by intro c hc; simpa using hallrun c hc)] at hx
    rw [List.mem_filterMap] at hx
    obtain ⟨pr, hpr, hval⟩ := hx
    rw [List.enum_map, List.mem_map] at hpr
    obtain ⟨⟨i, c⟩, hic, heq⟩ := hpr
    rw [List.mem_enum_iff_getElem?] at hic
    dsimp only at hic
    subst heq
    simp only [Prod.map, id] at hval
    by_cases hcond :
        (((dictLookup d c).map pinyinWord).getD []).headD 0 = seed
    · rw [if_pos hcond] at hval
      have hgd : run.getD i 0 = c := by
        simp [List.getD_eq_getElem?_getD, hic]
      rw [hgd] at hval
      injection hval with hcx
      subst hcx
      have hmemrun : c ∈ run := by
        have h2 := hic
        rw [List.getElem?_eq_some_iff] at h2
        obtain ⟨hlt, hh⟩ := h2
        rw [← hh]
        exact List.getElem_mem hlt
      obtain ⟨v, hv⟩ := Option.isSome_iff_exists.mp (hallrun c hmemrun)
      refine ⟨(hsub c hmemrun).1, (hsub c hmemrun).2, ?_⟩
      rw [readingInitial, hv, Option.map_some']
      rw [hv] at hcond
      simp only [Option.map_some', Option.getD_some] at hcond
      rw [hcond]
    · rw [if_neg hcond] at hval
      cases hval
  · rintro ⟨hmem, hcjk, hinit⟩
    have hflat : x ∈ (chineseRuns content).flatten := by
      rw [chineseRuns_flatten content.length content (le_refl _)]
      exact List.mem_filter.mpr ⟨hmem, hcjk⟩
    obtain ⟨run, hrun, hxrun⟩ := List.mem_flatten.mp hflat
    refine ⟨run, hrun, ?_⟩
    have hsub : ∀ c ∈ run, c ∈ content ∧ isChinese c = true := by
      intro c hc
      have hflat' : c ∈ (chineseRuns content).flatten :=
        List.mem_flatten.mpr ⟨run, hrun, hc⟩
      rw [chineseRuns_flatten content.length content (le_refl _)] at hflat'
      exact ⟨(List.mem_filter.mp hflat').1, (List.mem_filter.mp hflat').2⟩
    have hne : run ≠ [] :=
      chineseRuns_ne_nil content.length content (le_refl _) run hrun
    have hallrun : ∀ c ∈ run, (dictLookup d c).isSome := fun c hc =>
      hdict c (hsub c hc).1 (hsub c hc).2
    rw [pinyin_split_roundtrip d run hne hallrun hwf]
    rw [get_pinyin_parts_eq_spec,
      pinyinPartsSpec_all_present _ run (by intro c hc; simpa using hallrun c hc)]
    rw [List.mem_filterMap]
    obtain ⟨i, hlt, hget⟩ := List.mem_iff_getElem.mp hxrun
    obtain ⟨v, hv⟩ := Option.isSome_iff_exists.mp (hallrun x hxrun)
    rw [readingInitial, hv, Option.map_some'] at hinit
    have hinit' : (pinyinWord v).headD 0 = seed := by
      cases hinit
      rfl
    refine ⟨(i, ((dictLookup d x).map pinyinWord).getD []), ?_, ?_⟩
    · rw [List.enum_map, List.mem_map]
      refine ⟨(i, x), ?_, ?_⟩
      · rw [List.mem_enum_iff_getElem?]
        simp [List.getElem?_eq_some_iff]
        exact ⟨hlt, hget⟩
      · rfl
    · rw [hv]
      simp only [Option.map_some', Option.getD_some]
      rw [if_pos hinit']
      have hgd : run.getD i 0 = x := by
        have : run[i]? = some x := by
          rw [List.getElem?_eq_some_iff]
          exact ⟨hlt, hget⟩
        simp [List.getD_eq_getElem?_getD, this]
      rw [hgd]

/-- A region position's character occurs in the region content string. -/
theorem mem_region_content (text : List Nat) (rb re p : Nat)
    (hrb : rb ≤ p) (hp : p < re) (hre : re ≤ text.length) :
    text.getD p 0 ∈ (text.drop rb).take (re - rb) := by
  have h1 : p - rb < re - rb := by omega
  have hplen : p < text.length := by omega
  have h2 : ((text.drop rb).take (re - rb))[p - rb]? = text[p]? := by
    rw [show ((text.drop rb).take (re - rb))[p - rb]? = (text.drop rb)[p - rb]? by
      simp [List.getElem?_take, h1]]
    rw [List.getElem?_drop]
    congr 1
    omega
  have hgd : text.getD p 0 = text[p] := by
    simp [List.getD_eq_getElem?_getD, List.getElem?_eq_getElem hplen]
  have h3 : text[p]? = some (text.getD p 0) := by
    rw [List.getElem?_eq_getElem hplen, hgd]
  rw [h3] at h2
  rw [List.getElem?_eq_some_iff] at h2
  obtain ⟨hlt, hh⟩ := h2
  rw [← hh]
  exact List.getElem_mem hlt

/-- Counterexample to C5 as stated: dictionary {你 → "NI3"}, region "一丁你"
(three CJK characters, the first two absent from the dictionary), seed 'n'.
The reading of 你 (position 2) starts with 'n', yet position 2 is NOT among
the matches, because the two dictionary-absent characters collapse into one
pinyin part and shift the enumeration index: the loop adds 丁 — whose
reading initial is not 'n' — to the alternation class instead of 你, so
position 1 IS matched although 丁 is not otherwise in the class and its
reading does not match the seed. -/
theorem c5_counterexample :
    isChinese 0x4F60 = true ∧
      readingInitial [(0x4F60, [78, 73, 51])] 0x4F60 = some 110 ∧
      (2 : Nat) ∉ (findWithChinese [(0x4F60, [78, 73, 51])]
        [0x4E00, 0x4E01, 0x4F60] 0 3 110 52).regions.map Prod.fst ∧
      dictLookup [(0x4F60, [78, 73, 51])] 0x4E01 = none ∧
      (0x4E01 : Nat) ≠ 110 ∧
      (1 : Nat) ∈ (findWithChinese [(0x4F60, [78, 73, 51])]
        [0x4E00, 0x4E01, 0x4F60] 0 3 110 52).regions.map Prod.fst := by
  decide

/-- Claim C5 amended: when phonetic augmentation is enabled, for every region
and single-character seed pattern, and provided every CJK character of the
region content is present in the pinyin dictionary (so the pinyin parts align
positionally with the run characters) with reading words free of the
splitter '-', every CJK character whose dictionary reading's initial letter
matches the seed has all its region occurrences among the matches (given
label budget for the region), and a CJK character whose reading initial does
not match and that is not the seed itself has none. -/
theorem c5_phonetic_augmentation (d : PinyinDict) (text : List Nat)
    (rb re seed maxLabels : Nat)
    (hre : re ≤ text.length) (hbudget : re - rb ≤ maxLabels)
    (hdict : ∀ c ∈ (text.drop rb).take (re - rb), isChinese c = true →
      (dictLookup d c).isSome)
    (hwf : ∀ kv ∈ d, (45 : Nat) ∉ pinyinWord kv.2)
    (p : Nat) (hp1 : rb ≤ p) (hp2 : p < re)
    (hcjk : isChinese (text.getD p 0) = true) :
    (readingInitial d (text.getD p 0) = some seed →
        p ∈ (findWithChinese d text rb re seed maxLabels).regions.map Prod.fst) ∧
      (readingInitial d (text.getD p 0) ≠ some seed → text.getD p 0 ≠ seed →
        p ∉ (findWithChinese d text rb re seed maxLabels).regions.map Prod.fst) := by
  have hbegins : (findWithChinese d text rb re seed maxLabels).regions.map Prod.fst =
      matchPositions
        (fun i => decide (text.getD i 0 = seed ∨ text.getD i 0 ∈
          matchedChineseChars d seed ((text.drop rb).take (re - rb)))) rb (re - rb) := by
    obtain ⟨ms, ns1, li1, hfl⟩ :
        ∃ a c e,
          findRaw (seedClassSearcher text seed
              (matchedChineseChars d seed ((text.drop rb).take (re - rb))))
            rb re none maxLabels 0 = (a, c, e) :=
      ⟨_, _, _, rfl⟩
    have hreg : (findWithChinese d text rb re seed maxLabels).regions =
        ms.map (fun m => (m.1, m.1 + 1)) := by
      simp [findWithChinese, find, hfl]
    rw [hreg, List.map_map]
    rw [show (Prod.fst ∘ fun m : Nat × Nat => (m.1, m.1 + 1)) = Prod.fst from rfl]
    have hms : (findLoop (seedClassSearcher text seed
        (matchedChineseChars d seed ((text.drop rb).take (re - rb))))
        re maxLabels (re + 1) rb 0).1 = ms := by
      have h := hfl
      rw [show findRaw (seedClassSearcher text seed
          (matchedChineseChars d seed ((text.drop rb).take (re - rb))))
          rb re none maxLabels 0 =
        findLoop (seedClassSearcher text seed
          (matchedChineseChars d seed ((text.drop rb).take (re - rb))))
          re maxLabels (re + 1) rb 0 from rfl] at h
      rw [h]
    rw [← hms]
    exact seedClass_findLoop_positions text seed _ re hre (re + 1) rb 0 maxLabels
      (by omega) (by omega)
  constructor
  · intro hinit
    rw [hbegins, matchPositions_mem]
    refine ⟨hp1, by omega, ?_⟩
    simp only [decide_eq_true_eq]
    right
    rw [matchedChineseChars_mem d seed _ hdict hwf]
    exact ⟨mem_region_content text rb re p hp1 hp2 hre, hcjk, hinit⟩
  · intro hinit hseed hmem
    rw [hbegins, matchPositions_mem] at hmem
    obtain ⟨-, -, hpred⟩ := hmem
    simp only [decide_eq_true_eq] at hpred
    rcases hpred with h | h
    · exact hseed h
    · rw [matchedChineseChars_mem d seed _ hdict hwf] at h
      exact hinit h.2.2

/-- Witness for the amended C5: dictionary {你 → "NI3"}, text "a你b",
position 1, seed 'n'. -/
theorem c5_phonetic_augmentation_witness :
    (3 ≤ ([97, 0x4F60, 98] : List Nat).length) ∧
      ((3 : Nat) - 0 ≤ 52) ∧
      (∀ c ∈ (([97, 0x4F60, 98] : List Nat).drop 0).take (3 - 0),
        isChinese c = true → (dictLookup [(0x4F60, [78, 73, 51])] c).isSome) ∧
      (∀ kv ∈ [((0x4F60 : Nat), [78, 73, 51])], (45 : Nat) ∉ pinyinWord kv.2) ∧
      isChinese (([97, 0x4F60, 98] : List Nat).getD 1 0) = true ∧
      ((readingInitial [(0x4F60, [78, 73, 51])]
          (([97, 0x4F60, 98] : List Nat).getD 1 0) = some 110 →
        (1 : Nat) ∈ (findWithChinese [(0x4F60, [78, 73, 51])] [97, 0x4F60, 98]
          0 3 110 52).regions.map Prod.fst) ∧
      (readingInitial [(0x4F60, [78, 73, 51])]
          (([97, 0x4F60, 98] : List Nat).getD 1 0) ≠ some 110 →
        ([97, 0x4F60, 98] : List Nat).getD 1 0 ≠ 110 →
        (1 : Nat) ∉ (findWithChinese [(0x4F60, [78, 73, 51])] [97, 0x4F60, 98]
          0 3 110 52).regions.map Prod.fst)) :=
  ⟨by decide, by decide, by decide, by decide, by decide,
    c5_phonetic_augmentation [(0x4F60, [78, 73, 51])] [97, 0x4F60, 98] 0 3 110 52
      (by decide) (by decide) (by decide) (by decide) 1 (by decide) (by decide)
      (by decide)⟩

end AceJump
